import Mathlib

/-!
Verification of the selectlib order-statistics selection library.

The repository ships three entry points (`quickselect`, `heapselect`,
`nth_element`) implemented in a C extension whose source is not part of the
python files at hand; only the test suite and the two benchmark drivers are.
The algorithm cores below are therefore modelled from the specification
(partition primitives, Hoare-style three-way quickselect with a
median-of-three pivot, bounded-heap selection, and introselect with a
depth-bounded fallback), and the benchmark drivers `benchmark.py` and
`benchmark_median.py` are embedded directly from their python sources.

Elements are integers; an optional python key function is modelled as an
arbitrary function `f : Int → Int`, with `id` standing for "no key".
-/

/-- Comparison used throughout: the list is ordered by the effective key `f`. -/
def KSorted (f : Int → Int) (l : List Int) : Prop :=
  List.Pairwise (fun a b => f a ≤ f b) l

/-- All elements of `l` whose key equals `c`, in list order (a key class). -/
def keql (f : Int → Int) (c : Int) (l : List Int) : List Int :=
  l.filter (fun x => decide (f x = c))

/-- Number of elements of `l` with key strictly below `c`. -/
def cntLt (f : Int → Int) (c : Int) (l : List Int) : Nat :=
  (l.filter (fun x => decide (f x < c))).length

/-- Modelled from the spec: stable insertion used by the model of python's
`sorted(values, key=f)`; the new element goes in front of the first element
with a key not smaller than its own, hence before its ties. -/
def insKey (f : Int → Int) (x : Int) : List Int → List Int
  | [] => [x]
  | y :: ys => if f x ≤ f y then x :: y :: ys else y :: insKey f x ys

/-- Modelled from the spec: python's builtin `sorted(values, key=f)`
(a stable sort by the effective key), used by the tests and benchmarks as
the reference ordering. -/
def sortByKey (f : Int → Int) : List Int → List Int
  | [] => []
  | x :: xs => insKey f x (sortByKey f xs)

theorem keql_cons (f : Int → Int) (c y : Int) (l : List Int) :
    keql f c (y :: l) = if f y = c then y :: keql f c l else keql f c l := by
  simp only [keql, List.filter_cons]
  by_cases h : f y = c <;> simp [h]

theorem insKey_perm (f : Int → Int) (x : Int) (l : List Int) :
    (insKey f x l).Perm (x :: l) := by
  induction l with
  | nil => simp [insKey]
  | cons y ys ih =>
    simp only [insKey]
    split
    · exact List.Perm.refl _
    · exact (List.Perm.cons y ih).trans (List.Perm.swap x y ys)

theorem insKey_sorted (f : Int → Int) (x : Int) (l : List Int)
    (h : KSorted f l) : KSorted f (insKey f x l) := by
  induction l with
  | nil => simp [insKey, KSorted]
  | cons y ys ih =>
    rcases (List.pairwise_cons.mp h) with ⟨hy, hys⟩
    simp only [insKey]
    split
    · refine List.pairwise_cons.mpr ⟨?_, h⟩
      intro b hb
      rcases List.mem_cons.mp hb with hb | hb
      · subst hb; assumption
      · exact le_trans (by assumption) (hy b hb)
    · refine List.pairwise_cons.mpr ⟨?_, ih hys⟩
      intro b hb
      have hb' := (insKey_perm f x ys).mem_iff.mp hb
      rcases List.mem_cons.mp hb' with hb' | hb'
      · subst hb'; omega
      · exact hy b hb'

theorem sortByKey_perm (f : Int → Int) (l : List Int) :
    (sortByKey f l).Perm l := by
  induction l with
  | nil => simp [sortByKey]
  | cons x xs ih =>
    exact (insKey_perm f x (sortByKey f xs)).trans (ih.cons x)

theorem sortByKey_sorted (f : Int → Int) (l : List Int) :
    KSorted f (sortByKey f l) := by
  induction l with
  | nil => simp [sortByKey, KSorted]
  | cons x xs ih => exact insKey_sorted f x _ ih

theorem sortByKey_length (f : Int → Int) (l : List Int) :
    (sortByKey f l).length = l.length :=
  (sortByKey_perm f l).length_eq

theorem keql_insKey (f : Int → Int) (c x : Int) (l : List Int) :
    keql f c (insKey f x l) =
      if f x = c then x :: keql f c l else keql f c l := by
  induction l with
  | nil =>
    show keql f c [x] = _
    rw [keql_cons]
  | cons y ys ih =>
    simp only [insKey]
    by_cases hxy : f x ≤ f y
    · rw [if_pos hxy, keql_cons]
    · rw [if_neg hxy, keql_cons, ih, keql_cons]
      by_cases hy : f y = c <;> by_cases hx : f x = c <;> simp [hy, hx]
      exfalso; omega

theorem keql_sortByKey (f : Int → Int) (c : Int) (l : List Int) :
    keql f c (sortByKey f l) = keql f c l := by
  induction l with
  | nil => rfl
  | cons x xs ih =>
    simp only [sortByKey, keql_insKey, ih, keql_cons]

theorem sortByKey_eq_self (f : Int → Int) (l : List Int)
    (h : KSorted f l) : sortByKey f l = l := by
  induction l with
  | nil => rfl
  | cons x xs ih =>
    rcases (List.pairwise_cons.mp h) with ⟨hx, hxs⟩
    simp only [sortByKey, ih hxs]
    cases xs with
    | nil => rfl
    | cons y ys =>
      simp only [insKey]
      rw [if_pos (hx y (by simp))]

theorem keql_ne_nil_of_mem (f : Int → Int) (l : List Int) (x : Int)
    (hx : x ∈ l) : keql f (f x) l ≠ [] := by
  intro h
  have hmem : x ∈ keql f (f x) l := by
    simp [keql, List.mem_filter, hx]
  rw [h] at hmem
  exact absurd hmem (List.not_mem_nil x)

theorem mem_keql (f : Int → Int) (c x : Int) (l : List Int) :
    x ∈ keql f c l ↔ x ∈ l ∧ f x = c := by
  simp [keql, List.mem_filter]

theorem sorted_keql_ext (f : Int → Int) :
    ∀ l₁ l₂ : List Int, KSorted f l₁ → KSorted f l₂ →
      (∀ c, keql f c l₁ = keql f c l₂) → l₁ = l₂ := by
  intro l₁
  induction l₁ with
  | nil =>
    intro l₂ _ _ hc
    cases l₂ with
    | nil => rfl
    | cons b t₂ =>
      exact absurd ((hc (f b)).symm) (keql_ne_nil_of_mem f (b :: t₂) b (by simp))
  | cons a t₁ ih =>
    intro l₂ h₁ h₂ hc
    cases l₂ with
    | nil =>
      exact absurd (hc (f a)) (keql_ne_nil_of_mem f (a :: t₁) a (by simp))
    | cons b t₂ =>
      rcases List.pairwise_cons.mp h₁ with ⟨ha, ht₁⟩
      rcases List.pairwise_cons.mp h₂ with ⟨hb, ht₂⟩
      -- the two heads carry the same (minimal) key
      have hfafb : f a = f b := by
        rcases lt_trichotomy (f a) (f b) with hlt | heq | hgt
        · exfalso
          have hne := keql_ne_nil_of_mem f (a :: t₁) a (by simp)
          rw [hc (f a)] at hne
          rcases List.exists_mem_of_ne_nil _ hne with ⟨x, hxmem⟩
          rcases (mem_keql f (f a) x (b :: t₂)).mp hxmem with ⟨hxl, hxk⟩
          rcases List.mem_cons.mp hxl with hxb | hxt
          · subst hxb; omega
          · have := hb x hxt; omega
        · exact heq
        · exfalso
          have hne := keql_ne_nil_of_mem f (b :: t₂) b (by simp)
          rw [← hc (f b)] at hne
          rcases List.exists_mem_of_ne_nil _ hne with ⟨x, hxmem⟩
          rcases (mem_keql f (f b) x (a :: t₁)).mp hxmem with ⟨hxl, hxk⟩
          rcases List.mem_cons.mp hxl with hxa | hxt
          · subst hxa; omega
          · have := ha x hxt; omega
      have hfa : keql f (f a) (a :: t₁) = a :: keql f (f a) t₁ := by
        rw [keql_cons, if_pos rfl]
      have hfb : keql f (f a) (b :: t₂) = b :: keql f (f a) t₂ := by
        rw [keql_cons, if_pos hfafb.symm]
      have hkey := hc (f a)
      rw [hfa, hfb] at hkey
      have hab : a = b := List.head_eq_of_cons_eq hkey
      have htail : ∀ c, keql f c t₁ = keql f c t₂ := by
        intro c
        by_cases hca : c = f a
        · subst hca
          exact List.tail_eq_of_cons_eq hkey
        · have h1 : keql f c (a :: t₁) = keql f c t₁ := by
            rw [keql_cons, if_neg (by omega)]
          have h2 : keql f c (b :: t₂) = keql f c t₂ := by
            rw [keql_cons, if_neg (by rw [← hfafb]; omega)]
          rw [← h1, ← h2]
          exact hc c
      rw [hab, ih t₂ ht₁ ht₂ htail]

/-! ### Positional helpers for `List.getD` -/

theorem getD_append_left (A B : List Int) (i : Nat) (h : i < A.length) :
    (A ++ B).getD i 0 = A.getD i 0 := by
  induction A generalizing i with
  | nil => simp at h
  | cons a t ih =>
    cases i with
    | zero => simp
    | succ n =>
      simp only [List.cons_append, List.getD_cons_succ]
      exact ih n (by simpa using h)

theorem getD_append_add (A B : List Int) (i : Nat) :
    (A ++ B).getD (A.length + i) 0 = B.getD i 0 := by
  induction A with
  | nil => simp
  | cons a t ih =>
    simpa [List.length_cons, Nat.succ_add] using ih

theorem getD_mem (l : List Int) (i : Nat) (h : i < l.length) :
    l.getD i 0 ∈ l := by
  induction l generalizing i with
  | nil => simp at h
  | cons a t ih =>
    cases i with
    | zero => simp
    | succ n =>
      simp only [List.getD_cons_succ]
      exact List.mem_cons_of_mem a (ih n (by simpa using h))

theorem drop_eq_getD_cons (l : List Int) (k : Nat) (h : k < l.length) :
    l.drop k = l.getD k 0 :: l.drop (k + 1) := by
  induction l generalizing k with
  | nil => simp at h
  | cons a t ih =>
    cases k with
    | zero => simp
    | succ n =>
      simp only [List.drop_succ_cons, List.getD_cons_succ]
      exact ih n (by simpa using h)

/-! ### Partition primitives -/

/-- Modelled from the spec: median of three candidate pivot keys, the pivot
selection heuristic of §4.1. -/
def med3 (a b c : Int) : Int :=
  if a ≤ b then (if b ≤ c then b else (if a ≤ c then c else a))
  else (if a ≤ c then a else (if b ≤ c then c else b))

/-- Modelled from the spec: the pivot key used by quickselect and
nth_element — median of the keys of the first, middle and last elements
of the range. -/
def pivotKey (f : Int → Int) (l : List Int) : Int :=
  med3 (f (l.getD 0 0)) (f (l.getD ((l.length - 1) / 2) 0))
    (f (l.getD (l.length - 1) 0))

/-- Modelled from the spec: elements comparing strictly below the pivot. -/
def partLt (f : Int → Int) (p : Int) (l : List Int) : List Int :=
  l.filter (fun x => decide (f x < p))

/-- Modelled from the spec: elements comparing strictly above the pivot.
Together with `partLt` and the pivot class `keql` this is the three-way
in-place partition of §4.1. -/
def partGt (f : Int → Int) (p : Int) (l : List Int) : List Int :=
  l.filter (fun x => decide (p < f x))

theorem med3_cases (a b c : Int) : med3 a b c = a ∨ med3 a b c = b ∨ med3 a b c = c := by
  unfold med3
  split_ifs <;> simp

theorem pivotKey_attained (f : Int → Int) (l : List Int) (h : l ≠ []) :
    ∃ x ∈ l, f x = pivotKey f l := by
  have hlen : 0 < l.length := List.length_pos.mpr h
  rcases med3_cases (f (l.getD 0 0)) (f (l.getD ((l.length - 1) / 2) 0))
      (f (l.getD (l.length - 1) 0)) with hm | hm | hm
  · exact ⟨l.getD 0 0, getD_mem l 0 hlen, hm.symm⟩
  · exact ⟨l.getD ((l.length - 1) / 2) 0, getD_mem l _ (by omega), hm.symm⟩
  · exact ⟨l.getD (l.length - 1) 0, getD_mem l _ (by omega), hm.symm⟩

theorem mem_partLt (f : Int → Int) (p x : Int) (l : List Int) :
    x ∈ partLt f p l ↔ x ∈ l ∧ f x < p := by
  simp [partLt, List.mem_filter]

theorem mem_partGt (f : Int → Int) (p x : Int) (l : List Int) :
    x ∈ partGt f p l ↔ x ∈ l ∧ p < f x := by
  simp [partGt, List.mem_filter]

theorem part_perm (f : Int → Int) (p : Int) (l : List Int) :
    (partLt f p l ++ (keql f p l ++ partGt f p l)).Perm l := by
  induction l with
  | nil => simp [partLt, keql, partGt]
  | cons x xs ih =>
    rcases lt_trichotomy (f x) p with hx | hx | hx
    · have h1 : partLt f p (x :: xs) = x :: partLt f p xs := by
        simp [partLt, List.filter_cons, hx]
      have h2 : keql f p (x :: xs) = keql f p xs := by
        rw [keql_cons, if_neg (by omega)]
      have h3 : partGt f p (x :: xs) = partGt f p xs := by
        simp [partGt, List.filter_cons]; omega
      rw [h1, h2, h3]
      exact ih.cons x
    · have h1 : partLt f p (x :: xs) = partLt f p xs := by
        simp [partLt, List.filter_cons]; omega
      have h2 : keql f p (x :: xs) = x :: keql f p xs := by
        rw [keql_cons, if_pos hx]
      have h3 : partGt f p (x :: xs) = partGt f p xs := by
        simp [partGt, List.filter_cons]; omega
      rw [h1, h2, h3]
      exact List.perm_middle.trans (ih.cons x)
    · have h1 : partLt f p (x :: xs) = partLt f p xs := by
        simp [partLt, List.filter_cons]; omega
      have h2 : keql f p (x :: xs) = keql f p xs := by
        rw [keql_cons, if_neg (by omega)]
      have h3 : partGt f p (x :: xs) = x :: partGt f p xs := by
        simp [partGt, List.filter_cons, hx]
      rw [h1, h2, h3]
      exact ((List.Perm.append_left _ List.perm_middle).trans List.perm_middle).trans
        (ih.cons x)

theorem keql_append (f : Int → Int) (c : Int) (A B : List Int) :
    keql f c (A ++ B) = keql f c A ++ keql f c B := by
  simp [keql, List.filter_append]

theorem keql_filter_lt (f : Int → Int) (c p : Int) (l : List Int) :
    keql f c (partLt f p l) = if c < p then keql f c l else [] := by
  induction l with
  | nil => simp [partLt, keql]
  | cons x xs ih =>
    by_cases hx : f x < p
    · have h1 : partLt f p (x :: xs) = x :: partLt f p xs := by
        simp [partLt, List.filter_cons, hx]
      rw [h1, keql_cons, keql_cons]
      by_cases hc : f x = c
      · have : c < p := by omega
        simp [hc, this, ih, this]
      · simp [hc, ih]
    · have h1 : partLt f p (x :: xs) = partLt f p xs := by
        simp [partLt, List.filter_cons]; omega
      rw [h1, ih, keql_cons]
      by_cases hcp : c < p
      · have hc : ¬ (f x = c) := by omega
        simp [hcp, hc]
      · simp [hcp]

theorem keql_filter_gt (f : Int → Int) (c p : Int) (l : List Int) :
    keql f c (partGt f p l) = if p < c then keql f c l else [] := by
  induction l with
  | nil => simp [partGt, keql]
  | cons x xs ih =>
    by_cases hx : p < f x
    · have h1 : partGt f p (x :: xs) = x :: partGt f p xs := by
        simp [partGt, List.filter_cons, hx]
      rw [h1, keql_cons, keql_cons]
      by_cases hc : f x = c
      · have : p < c := by omega
        simp [hc, this, ih]
      · simp [hc, ih]
    · have h1 : partGt f p (x :: xs) = partGt f p xs := by
        simp [partGt, List.filter_cons]; omega
      rw [h1, ih, keql_cons]
      by_cases hcp : p < c
      · have hc : ¬ (f x = c) := by omega
        simp [hcp, hc]
      · simp [hcp]

theorem keql_keql (f : Int → Int) (c p : Int) (l : List Int) :
    keql f c (keql f p l) = if c = p then keql f c l else [] := by
  induction l with
  | nil => simp [keql]
  | cons x xs ih =>
    rw [keql_cons]
    by_cases hx : f x = p
    · rw [if_pos hx, keql_cons, ih]
      by_cases hcp : c = p
      · rw [if_pos hcp, if_pos hcp, keql_cons]
      · rw [if_neg hcp, if_neg hcp]
        have hc : ¬ (f x = c) := by omega
        rw [if_neg hc]
    · rw [if_neg hx, ih]
      by_cases hcp : c = p
      · have hc : ¬ (f x = c) := by omega
        rw [if_pos hcp, if_pos hcp, keql_cons, if_neg hc]
      · rw [if_neg hcp, if_neg hcp]

theorem part_keql (f : Int → Int) (p : Int) (l : List Int) (c : Int) :
    keql f c (partLt f p l ++ (keql f p l ++ partGt f p l)) = keql f c l := by
  rw [keql_append, keql_append, keql_filter_lt, keql_filter_gt, keql_keql]
  rcases lt_trichotomy c p with h | h | h
  · rw [if_pos h, if_neg (by omega), if_neg (by omega)]
    simp
  · rw [if_neg (by omega), if_pos h, if_neg (by omega)]
    simp
  · rw [if_neg (by omega), if_neg (by omega), if_pos h]
    simp

theorem length_filter_lt_of_witness (q : Int → Bool) (l : List Int) (x : Int)
    (hx : x ∈ l) (hqx : q x = false) : (l.filter q).length < l.length := by
  induction l with
  | nil => simp at hx
  | cons a t ih =>
    rcases List.mem_cons.mp hx with rfl | hxt
    · rw [List.filter_cons, hqx]
      simp only [cond_false, List.length_cons]
      exact Nat.lt_succ_of_le (List.length_filter_le q t)
    · rw [List.filter_cons]
      cases hqa : q a
      · simp only [cond_false, List.length_cons]
        exact Nat.lt_succ_of_lt (ih hxt)
      · simp only [cond_true, List.length_cons]
        exact Nat.succ_lt_succ (ih hxt)

/-! ### The shared postcondition of the three algorithms -/

/-- The full postcondition each selection algorithm establishes on its output
`r` for input `l` and rank `k`: `r` is a permutation of `l`, the partition
invariant holds at `k` under the effective key, and every key class keeps its
original relative order (which pins the value at index `k` to that of the
stable sort). -/
def StableSelect (f : Int → Int) (l r : List Int) (k : Nat) : Prop :=
  r.Perm l ∧
  (∀ i, i < k → f (r.getD i 0) ≤ f (r.getD k 0)) ∧
  (∀ j, k < j → j < r.length → f (r.getD k 0) ≤ f (r.getD j 0)) ∧
  (∀ c, keql f c r = keql f c l)

theorem stableSelect_append_lt (f : Int → Int) (p : Int)
    (lt rest l r₁ : List Int) (k : Nat)
    (hperm : (lt ++ rest).Perm l)
    (hcls : ∀ c, keql f c (lt ++ rest) = keql f c l)
    (hlt : ∀ x ∈ lt, f x < p)
    (hrest : ∀ x ∈ rest, p ≤ f x)
    (hk : k < lt.length)
    (hsel : StableSelect f lt r₁ k) :
    StableSelect f l (r₁ ++ rest) k := by
  obtain ⟨hp1, hlow, hhigh, hcl⟩ := hsel
  have hlen : r₁.length = lt.length := hp1.length_eq
  have hkr : k < r₁.length := by omega
  have hgk : (r₁ ++ rest).getD k 0 = r₁.getD k 0 := getD_append_left _ _ _ hkr
  have hrkmem : r₁.getD k 0 ∈ lt := hp1.mem_iff.mp (getD_mem _ _ hkr)
  have hrkp : f (r₁.getD k 0) < p := hlt _ hrkmem
  refine ⟨(hp1.append_right rest).trans hperm, ?_, ?_, ?_⟩
  · intro i hi
    rw [hgk, getD_append_left _ _ _ (by omega)]
    exact hlow i hi
  · intro j hj hjlen
    rw [hgk]
    by_cases hjr : j < r₁.length
    · rw [getD_append_left _ _ _ hjr]
      exact hhigh j hj hjr
    · have hj' : j = r₁.length + (j - r₁.length) := by omega
      rw [hj', getD_append_add]
      have hmem : rest.getD (j - r₁.length) 0 ∈ rest := by
        apply getD_mem
        rw [List.length_append] at hjlen
        omega
      exact le_of_lt (lt_of_lt_of_le hrkp (hrest _ hmem))
  · intro c
    rw [keql_append, hcl c, ← keql_append, hcls c]

theorem stableSelect_middle (f : Int → Int) (p : Int)
    (lt eqb gt l : List Int) (k : Nat)
    (hperm : (lt ++ (eqb ++ gt)).Perm l)
    (hcls : ∀ c, keql f c (lt ++ (eqb ++ gt)) = keql f c l)
    (hlt : ∀ x ∈ lt, f x < p)
    (heq : ∀ x ∈ eqb, f x = p)
    (hgt : ∀ x ∈ gt, p < f x)
    (hk1 : lt.length ≤ k) (hk2 : k < lt.length + eqb.length) :
    StableSelect f l (lt ++ (eqb ++ gt)) k := by
  have hksplit : k = lt.length + (k - lt.length) := by omega
  have hgk : (lt ++ (eqb ++ gt)).getD k 0 = eqb.getD (k - lt.length) 0 := by
    rw [hksplit, getD_append_add, getD_append_left _ _ _ (by omega)]
    congr 1
    omega
  have hkp : f ((lt ++ (eqb ++ gt)).getD k 0) = p := by
    rw [hgk]
    exact heq _ (getD_mem _ _ (by omega))
  refine ⟨hperm, ?_, ?_, fun c => hcls c⟩
  · intro i hi
    rw [hkp]
    by_cases hil : i < lt.length
    · rw [getD_append_left _ _ _ hil]
      exact le_of_lt (hlt _ (getD_mem _ _ hil))
    · have hi' : i = lt.length + (i - lt.length) := by omega
      rw [hi', getD_append_add, getD_append_left _ _ _ (by omega)]
      exact le_of_eq (heq _ (getD_mem _ _ (by omega)))
  · intro j hj hjlen
    rw [hkp]
    have hjtot : j < lt.length + (eqb.length + gt.length) := by
      simpa [List.length_append] using hjlen
    have hj' : j = lt.length + (j - lt.length) := by omega
    by_cases hje : j - lt.length < eqb.length
    · rw [hj', getD_append_add, getD_append_left _ _ _ hje]
      exact ge_of_eq (heq _ (getD_mem _ _ hje))
    · have hj'' : j - lt.length = eqb.length + (j - lt.length - eqb.length) := by omega
      rw [hj', getD_append_add, hj'', getD_append_add]
      exact le_of_lt (hgt _ (getD_mem _ _ (by omega)))

theorem stableSelect_append_gt (f : Int → Int) (p : Int)
    (left gt l r₃ : List Int) (k' k : Nat)
    (hperm : (left ++ gt).Perm l)
    (hcls : ∀ c, keql f c (left ++ gt) = keql f c l)
    (hleft : ∀ x ∈ left, f x ≤ p)
    (hgt : ∀ x ∈ gt, p < f x)
    (hk' : k' < gt.length)
    (hkeq : k = left.length + k')
    (hsel : StableSelect f gt r₃ k') :
    StableSelect f l (left ++ r₃) k := by
  subst hkeq
  obtain ⟨hp3, hlow, hhigh, hcl⟩ := hsel
  have hlen : r₃.length = gt.length := hp3.length_eq
  have hk3 : k' < r₃.length := by omega
  have hgk : (left ++ r₃).getD (left.length + k') 0 = r₃.getD k' 0 :=
    getD_append_add _ _ _
  have hrkmem : r₃.getD k' 0 ∈ gt := hp3.mem_iff.mp (getD_mem _ _ hk3)
  have hrkp : p < f (r₃.getD k' 0) := hgt _ hrkmem
  refine ⟨(List.Perm.append_left left hp3).trans hperm, ?_, ?_, ?_⟩
  · intro i hi
    rw [hgk]
    by_cases hil : i < left.length
    · rw [getD_append_left _ _ _ hil]
      exact le_of_lt (lt_of_le_of_lt (hleft _ (getD_mem _ _ hil)) hrkp)
    · have hi' : i = left.length + (i - left.length) := by omega
      rw [hi', getD_append_add]
      exact hlow _ (by omega)
  · intro j hj hjlen
    rw [hgk]
    have hj' : j = left.length + (j - left.length) := by omega
    rw [hj', getD_append_add]
    refine hhigh _ (by omega) ?_
    rw [List.length_append] at hjlen
    omega
  · intro c
    rw [keql_append, hcl c, ← keql_append, hcls c]

/-- Modelled from the spec: one partition step shared by quickselect and
nth_element — three-way partition around the pivot, then continue (`rec`)
only on the side containing the target rank (§4.2, §4.4). -/
def qselStep (f : Int → Int) (rec : List Int → Nat → List Int)
    (l : List Int) (k : Nat) : List Int :=
  if k < (partLt f (pivotKey f l) l).length then
    rec (partLt f (pivotKey f l) l) k
      ++ (keql f (pivotKey f l) l ++ partGt f (pivotKey f l) l)
  else if k < (partLt f (pivotKey f l) l).length + (keql f (pivotKey f l) l).length then
    partLt f (pivotKey f l) l ++ (keql f (pivotKey f l) l ++ partGt f (pivotKey f l) l)
  else
    partLt f (pivotKey f l) l ++ (keql f (pivotKey f l) l
      ++ rec (partGt f (pivotKey f l) l)
          (k - ((partLt f (pivotKey f l) l).length + (keql f (pivotKey f l) l).length)))

theorem qselStep_stableSelect (f : Int → Int) (rec : List Int → Nat → List Int)
    (l : List Int) (k : Nat) (hk : k < l.length)
    (hrec : ∀ l' k', l'.length < l.length → k' < l'.length →
      StableSelect f l' (rec l' k') k') :
    StableSelect f l (qselStep f rec l k) k := by
  have hne : l ≠ [] := by
    intro h
    subst h
    simp at hk
  obtain ⟨x₀, hx₀m, hx₀⟩ := pivotKey_attained f l hne
  set p := pivotKey f l with hp
  have hlt : ∀ x ∈ partLt f p l, f x < p := fun x hx => ((mem_partLt f p x l).mp hx).2
  have heq : ∀ x ∈ keql f p l, f x = p := fun x hx => ((mem_keql f p x l).mp hx).2
  have hgt : ∀ x ∈ partGt f p l, p < f x := fun x hx => ((mem_partGt f p x l).mp hx).2
  have hperm := part_perm f p l
  have hcls := part_keql f p l
  have hltlen : (partLt f p l).length < l.length :=
    length_filter_lt_of_witness _ l x₀ hx₀m (by simp [hx₀])
  have hgtlen : (partGt f p l).length < l.length :=
    length_filter_lt_of_witness _ l x₀ hx₀m (by simp [hx₀])
  have hsum : (partLt f p l).length + ((keql f p l).length + (partGt f p l).length)
      = l.length := by
    have h := hperm.length_eq
    simpa [List.length_append] using h
  unfold qselStep
  rw [← hp]
  split
  case isTrue h1 =>
    refine stableSelect_append_lt f p _ _ l _ k hperm hcls hlt ?_ h1
      (hrec _ k hltlen h1)
    intro x hx
    rcases List.mem_append.mp hx with hx | hx
    · exact le_of_eq (heq x hx).symm
    · exact le_of_lt (hgt x hx)
  case isFalse h1 =>
    split
    case isTrue h2 =>
      exact stableSelect_middle f p _ _ _ l k hperm hcls hlt heq hgt (by omega) h2
    case isFalse h2 =>
      rw [← List.append_assoc]
      have hk' : k - ((partLt f p l).length + (keql f p l).length)
          < (partGt f p l).length := by omega
      refine stableSelect_append_gt f p _ _ l _ _ k ?_ ?_ ?_ hgt hk' ?_
        (hrec _ _ hgtlen hk')
      · rw [List.append_assoc]
        exact hperm
      · intro c
        rw [List.append_assoc]
        exact hcls c
      · intro x hx
        rcases List.mem_append.mp hx with hx | hx
        · exact le_of_lt (hlt x hx)
        · exact le_of_eq (heq x hx)
      · rw [List.length_append]
        omega

/-- Modelled from the spec: quickselect (§4.2) — recursion-bounded three-way
partitioning restricted to the sub-range containing `k`; the fuel bounds the
recursion depth and never runs out when started at the sequence length. -/
def qselGo (f : Int → Int) : Nat → List Int → Nat → List Int
  | 0, l, _ => l
  | fuel + 1, l, k => qselStep f (qselGo f fuel) l k

/-- Modelled from the spec: the in-place transformation performed by
`selectlib.quickselect` on a sequence with a valid rank. -/
def qselCore (f : Int → Int) (l : List Int) (k : Nat) : List Int :=
  qselGo f l.length l k

theorem qselGo_stableSelect (f : Int → Int) :
    ∀ fuel l k, l.length ≤ fuel → k < l.length →
      StableSelect f l (qselGo f fuel l k) k := by
  intro fuel
  induction fuel with
  | zero =>
    intro l k h1 h2
    omega
  | succ n ih =>
    intro l k h1 h2
    exact qselStep_stableSelect f (qselGo f n) l k h2
      (fun l' k' hl' hk' => ih l' k' (by omega) hk')

theorem qselCore_stableSelect (f : Int → Int) (l : List Int) (k : Nat)
    (hk : k < l.length) : StableSelect f l (qselCore f l k) k :=
  qselGo_stableSelect f l.length l k le_rfl hk

/-! ### Heapselect -/

/-- Modelled from the spec: stable insertion into the key-sorted heap list of
heapselect — a later-scanned element goes behind its key ties. -/
def insKeyR (f : Int → Int) (x : Int) : List Int → List Int
  | [] => [x]
  | y :: ys => if f x < f y then x :: y :: ys else y :: insKeyR f x ys

/-- Modelled from the spec: heapselect's scan (§4.3) — the heap holds the
`k+1` smallest candidates so far, kept as a key-sorted list whose last
element plays the role of the max-heap root; a subsequent element replaces
the root exactly when it compares strictly smaller. -/
def hselLoop (f : Int → Int) (heap : List Int) : List Int → List Int
  | [] => heap
  | x :: xs =>
    if f x < f (heap.getD (heap.length - 1) 0) then
      hselLoop f (insKeyR f x heap.dropLast) xs
    else hselLoop f heap xs

/-- The final heap of heapselect: the `k+1` smallest elements of `l`. -/
def hselHeap (f : Int → Int) (l : List Int) (k : Nat) : List Int :=
  hselLoop f (sortByKey f (l.take (k + 1))) (l.drop (k + 1))

/-- Modelled from the spec: the in-place transformation performed by
`selectlib.heapselect` — the heap contents are written back to positions
`0..k` in the order required by the invariant and the remainder is
repositioned after them. -/
def hselCore (f : Int → Int) (l : List Int) (k : Nat) : List Int :=
  hselHeap f l k ++ l.diff (hselHeap f l k)

theorem insKeyR_perm (f : Int → Int) (x : Int) (l : List Int) :
    (insKeyR f x l).Perm (x :: l) := by
  induction l with
  | nil => simp [insKeyR]
  | cons y ys ih =>
    simp only [insKeyR]
    split
    · exact List.Perm.refl _
    · exact (List.Perm.cons y ih).trans (List.Perm.swap x y ys)

theorem insKeyR_sorted (f : Int → Int) (x : Int) (l : List Int)
    (h : KSorted f l) : KSorted f (insKeyR f x l) := by
  induction l with
  | nil => simp [insKeyR, KSorted]
  | cons y ys ih =>
    rcases (List.pairwise_cons.mp h) with ⟨hy, hys⟩
    simp only [insKeyR]
    split
    · refine List.pairwise_cons.mpr ⟨?_, h⟩
      intro b hb
      rcases List.mem_cons.mp hb with hb | hb
      · subst hb; omega
      · exact le_trans (by omega) (hy b hb)
    · refine List.pairwise_cons.mpr ⟨?_, ih hys⟩
      intro b hb
      have hb' := (insKeyR_perm f x ys).mem_iff.mp hb
      rcases List.mem_cons.mp hb' with hb' | hb'
      · subst hb'; omega
      · exact hy b hb'

theorem keql_eq_nil_of_forall (f : Int → Int) (c : Int) (l : List Int)
    (h : ∀ z ∈ l, f z ≠ c) : keql f c l = [] := by
  apply List.filter_eq_nil_iff.mpr
  intro a ha
  simp [h a ha]

theorem keql_insKeyR (f : Int → Int) (c x : Int) (l : List Int)
    (hs : KSorted f l) :
    keql f c (insKeyR f x l) =
      if f x = c then keql f c l ++ [x] else keql f c l := by
  induction l with
  | nil =>
    show keql f c [x] = _
    rw [keql_cons]
    by_cases hx : f x = c <;> simp [hx, keql]
  | cons y ys ih =>
    rcases (List.pairwise_cons.mp hs) with ⟨hy, hys⟩
    simp only [insKeyR]
    by_cases hxy : f x < f y
    · rw [if_pos hxy, keql_cons]
      by_cases hx : f x = c
      · rw [if_pos hx, if_pos hx]
        have hnil : keql f c (y :: ys) = [] := by
          apply keql_eq_nil_of_forall
          intro z hz
          rcases List.mem_cons.mp hz with rfl | hz
          · omega
          · have := hy z hz; omega
        rw [hnil]
        rfl
      · rw [if_neg hx, if_neg hx]
    · rw [if_neg hxy, keql_cons, ih hys, keql_cons]
      by_cases hx : f x = c <;> by_cases hyc : f y = c <;>
        simp [hx, hyc]

theorem count_cons_eq (y a : Int) (l : List Int) :
    (a :: l).count y = l.count y + if a = y then 1 else 0 := by
  by_cases h : a = y <;> simp [List.count_cons, h]

theorem count_keql_of_class (f : Int → Int) (c y : Int) (l : List Int)
    (hy : f y = c) : (keql f c l).count y = l.count y := by
  induction l with
  | nil => simp [keql]
  | cons a t ih =>
    rw [keql_cons]
    by_cases ha : f a = c
    · rw [if_pos ha, count_cons_eq, count_cons_eq, ih]
    · rw [if_neg ha, ih, count_cons_eq]
      have : ¬ (a = y) := by
        intro h
        subst h
        omega
      simp [this]

theorem count_keql_of_not (f : Int → Int) (c y : Int) (l : List Int)
    (hy : f y ≠ c) : (keql f c l).count y = 0 := by
  rw [List.count_eq_zero]
  intro hmem
  exact hy ((mem_keql f c y l).mp hmem).2

theorem getD_eq_get (l : List Int) (i : Nat) (h : i < l.length) :
    l.getD i 0 = l.get ⟨i, h⟩ := by
  induction l generalizing i with
  | nil => simp at h
  | cons a t ih =>
    cases i with
    | zero => simp
    | succ n => simpa using ih n (by simpa using h)

theorem sorted_le_getD_last (f : Int → Int) (l : List Int) (h : KSorted f l)
    (y : Int) (hy : y ∈ l) : f y ≤ f (l.getD (l.length - 1) 0) := by
  rcases List.mem_iff_get.mp hy with ⟨⟨i, hi⟩, rfl⟩
  have hlast : l.length - 1 < l.length := by omega
  rw [getD_eq_get l _ hlast]
  rcases Nat.lt_or_ge i (l.length - 1) with hilt | hige
  · exact (List.pairwise_iff_get.mp h) ⟨i, hi⟩ ⟨l.length - 1, hlast⟩ hilt
  · have : i = l.length - 1 := by omega
    subst this
    rfl

theorem dropLast_getD_decomp (l : List Int) (h : l ≠ []) :
    l = l.dropLast ++ [l.getD (l.length - 1) 0] := by
  induction l with
  | nil => exact absurd rfl h
  | cons a t ih =>
    cases t with
    | nil => rfl
    | cons b t' =>
      have hne : b :: t' ≠ [] := by simp
      have := ih hne
      calc a :: b :: t'
          = a :: ((b :: t').dropLast ++ [(b :: t').getD ((b :: t').length - 1) 0]) := by
            rw [← this]
        _ = (a :: b :: t').dropLast ++ [(a :: b :: t').getD ((a :: b :: t').length - 1) 0] := by
            simp [List.dropLast]

theorem count_singleton_eq (y x : Int) :
    ([x] : List Int).count y = if x = y then 1 else 0 := by
  simpa using count_cons_eq y x []

theorem take_eq_imp_le_length (a b : List Int) (h : b.take a.length = a) :
    a.length ≤ b.length := by
  have hlen := congrArg List.length h
  rw [List.length_take] at hlen
  omega

theorem filter_erase (p : Int → Bool) (l : List Int) (a : Int) :
    (l.erase a).filter p = if p a then (l.filter p).erase a else l.filter p := by
  induction l with
  | nil => cases hpa : p a <;> simp [hpa]
  | cons b t ih =>
    by_cases hba : b = a
    · subst hba
      rw [List.erase_cons_head]
      cases hpa : p b <;> simp [List.filter_cons, hpa, List.erase_cons_head]
    · have h1 : (b :: t).erase a = b :: t.erase a :=
        List.erase_cons_tail (by simp [hba])
      have h2 : (b :: t.filter p).erase a = b :: (t.filter p).erase a :=
        List.erase_cons_tail (by simp [hba])
      rw [h1, List.filter_cons, List.filter_cons]
      cases hpb : p b <;> cases hpa : p a
      · simp [ih, hpa]
      · simp [ih, hpa]
      · simp [ih, hpa]
      · simp [ih, hpa, h2]

theorem keql_erase (f : Int → Int) (c : Int) (l : List Int) (a : Int) :
    keql f c (l.erase a) =
      if f a = c then (keql f c l).erase a else keql f c l := by
  show (l.erase a).filter _ = _
  rw [filter_erase]
  by_cases ha : f a = c <;> simp [ha, keql]

theorem append_diff_perm (h l : List Int)
    (hcount : ∀ y, h.count y ≤ l.count y) : (h ++ l.diff h).Perm l := by
  induction h generalizing l with
  | nil => simp [List.diff_nil]
  | cons a h' ih =>
    have hal : a ∈ l := by
      rw [← List.count_pos_iff]
      have := hcount a
      rw [count_cons_eq] at this
      simp at this
      omega
    rw [List.diff_cons]
    have hc' : ∀ y, h'.count y ≤ (l.erase a).count y := by
      intro y
      rw [List.count_erase]
      have hc := hcount y
      rw [count_cons_eq] at hc
      by_cases hay : a = y
      · subst hay
        simp at hc ⊢
        omega
      · have hbeq : (a == y) = false := by simp [hay]
        rw [hbeq]
        simp at hc ⊢
        simp [hay] at hc
        omega
    exact ((ih (l.erase a) hc').cons a).trans (List.perm_cons_erase hal).symm

theorem count_diff_eq (h l : List Int)
    (hcount : ∀ y, h.count y ≤ l.count y) (y : Int) :
    (l.diff h).count y = l.count y - h.count y := by
  have hp := (append_diff_perm h l hcount).count_eq y
  rw [List.count_append] at hp
  have := hcount y
  omega

theorem mem_diff_deficit (h l : List Int)
    (hcount : ∀ y, h.count y ≤ l.count y) (y : Int) (hy : y ∈ l.diff h) :
    h.count y < l.count y := by
  have h1 : 0 < (l.diff h).count y := List.count_pos_iff.mpr hy
  rw [count_diff_eq h l hcount y] at h1
  omega

theorem keql_diff (f : Int → Int) (c : Int) :
    ∀ (h l : List Int), keql f c (l.diff h) = (keql f c l).diff (keql f c h) := by
  intro h
  induction h with
  | nil => intro l; simp [List.diff_nil, keql]
  | cons a h' ih =>
    intro l
    rw [List.diff_cons, ih, keql_erase, keql_cons]
    by_cases ha : f a = c
    · rw [if_pos ha, if_pos ha, List.diff_cons]
    · rw [if_neg ha, if_neg ha]

theorem diff_take_drop : ∀ (n : Nat) (L : List Int), L.diff (L.take n) = L.drop n := by
  intro n
  induction n with
  | zero => intro L; simp [List.diff_nil]
  | succ m ih =>
    intro L
    cases L with
    | nil => simp
    | cons a t =>
      rw [List.take_succ_cons, List.diff_cons, List.erase_cons_head, List.drop_succ_cons]
      exact ih t

/-- Invariant of heapselect's scan: the heap is key-sorted of fixed size `m`,
each key class of the heap is the earliest-seen part of that class of the
scanned elements, and every scanned element missing from the heap has a key
at least the root's (the last heap entry). -/
def HInv (f : Int → Int) (m : Nat) (seen heap : List Int) : Prop :=
  KSorted f heap ∧
  heap.length = m ∧
  (∀ c, (keql f c seen).take (keql f c heap).length = keql f c heap) ∧
  (∀ y, heap.count y < seen.count y → f (heap.getD (heap.length - 1) 0) ≤ f y)

theorem hinv_count_le (f : Int → Int) (m : Nat) (seen heap : List Int)
    (h : HInv f m seen heap) (y : Int) : heap.count y ≤ seen.count y := by
  obtain ⟨-, -, hcls, -⟩ := h
  have h1 : heap.count y = (keql f (f y) heap).count y :=
    (count_keql_of_class f (f y) y heap rfl).symm
  have h2 : seen.count y = (keql f (f y) seen).count y :=
    (count_keql_of_class f (f y) y seen rfl).symm
  rw [h1, h2, ← hcls (f y)]
  exact (List.take_sublist _ _).count_le y

theorem hinv_reject (f : Int → Int) (m : Nat) (seen heap : List Int) (x : Int)
    (h : HInv f m seen heap)
    (hx : f (heap.getD (heap.length - 1) 0) ≤ f x) :
    HInv f m (seen ++ [x]) heap := by
  obtain ⟨hs, hlen, hcls, hout⟩ := h
  refine ⟨hs, hlen, ?_, ?_⟩
  · intro c
    rw [keql_append]
    have hle : (keql f c heap).length ≤ (keql f c seen).length :=
      take_eq_imp_le_length _ _ (hcls c)
    rw [List.take_append_of_le_length hle]
    exact hcls c
  · intro y hy
    rw [List.count_append, count_singleton_eq] at hy
    by_cases hold : heap.count y < seen.count y
    · exact hout y hold
    · by_cases hxy : x = y
      · subst hxy
        exact hx
      · rw [if_neg hxy] at hy
        omega

theorem hinv_accept (f : Int → Int) (m : Nat) (seen heap : List Int) (x : Int)
    (hm : 1 ≤ m) (h : HInv f m seen heap)
    (hx : f x < f (heap.getD (heap.length - 1) 0)) :
    HInv f m (seen ++ [x]) (insKeyR f x heap.dropLast) := by
  have hcntle : ∀ y, heap.count y ≤ seen.count y := hinv_count_le f m seen heap h
  obtain ⟨hs, hlen, hcls, hout⟩ := h
  have hne : heap ≠ [] := by
    intro hnil
    rw [hnil] at hlen
    simp at hlen
    omega
  set mx := heap.getD (heap.length - 1) 0 with hmxdef
  have hdecomp : heap = heap.dropLast ++ [mx] := dropLast_getD_decomp heap hne
  set D := heap.dropLast with hDdef
  have hDlen : D.length = m - 1 := by
    rw [hDdef, List.length_dropLast, hlen]
  have hDsorted : KSorted f D :=
    List.Pairwise.sublist (List.dropLast_sublist heap) hs
  have hDmax : ∀ y ∈ D, f y ≤ f mx := by
    intro y hy
    exact sorted_le_getD_last f heap hs y (by rw [hdecomp]; exact List.mem_append_left _ hy)
  have hxmx : x ≠ mx := by
    intro hqe
    rw [hqe] at hx
    omega
  have hcount' : ∀ y, (insKeyR f x D).count y = D.count y + if x = y then 1 else 0 := by
    intro y
    rw [(insKeyR_perm f x D).count_eq, count_cons_eq]
  have hcountheap : ∀ y, heap.count y = D.count y + if mx = y then 1 else 0 := by
    intro y
    conv_lhs => rw [hdecomp]
    rw [List.count_append, count_singleton_eq]
  have hlen' : (insKeyR f x D).length = m := by
    rw [(insKeyR_perm f x D).length_eq, List.length_cons, hDlen]
    omega
  have hsorted' : KSorted f (insKeyR f x D) := insKeyR_sorted f x D hDsorted
  have hroot' : f ((insKeyR f x D).getD ((insKeyR f x D).length - 1) 0) ≤ f mx := by
    have hmem : (insKeyR f x D).getD ((insKeyR f x D).length - 1) 0 ∈ insKeyR f x D :=
      getD_mem _ _ (by rw [hlen']; omega)
    have hmem' := (insKeyR_perm f x D).mem_iff.mp hmem
    rcases List.mem_cons.mp hmem' with hq | hq
    · rw [hq]; omega
    · exact hDmax _ hq
  refine ⟨hsorted', hlen', ?_, ?_⟩
  · intro c
    rw [keql_append, keql_insKeyR f c x D hDsorted]
    have hkheap : keql f c heap = keql f c D ++ (if f mx = c then [mx] else []) := by
      conv_lhs => rw [hdecomp]
      rw [keql_append, keql_cons]
      by_cases hmc : f mx = c
      · rw [if_pos hmc, if_pos hmc]
        simp [keql]
      · rw [if_neg hmc, if_neg hmc]
        simp [keql]
    by_cases hcm : f mx = c
    · have hcx : ¬ (f x = c) := by omega
      rw [if_neg hcx]
      have hseenx : keql f c [x] = [] := by
        apply keql_eq_nil_of_forall
        intro z hz
        have hzx : z = x := by simpa using hz
        subst hzx
        omega
      rw [hseenx, List.append_nil]
      have hold := hcls c
      rw [hkheap, if_pos hcm] at hold
      have hlenD : (keql f c D ++ [mx]).length = (keql f c D).length + 1 := by simp
      rw [hlenD] at hold
      calc (keql f c seen).take (keql f c D).length
          = ((keql f c seen).take ((keql f c D).length + 1)).take (keql f c D).length := by
            rw [List.take_take]
            congr 1
            omega
        _ = (keql f c D ++ [mx]).take (keql f c D).length := by rw [hold]
        _ = keql f c D := by
            rw [List.take_append_of_le_length le_rfl, List.take_length]
    · have hkeq : keql f c heap = keql f c D := by
        rw [hkheap, if_neg hcm, List.append_nil]
      by_cases hcx : f x = c
      · rw [if_pos hcx]
        have hfull : keql f c heap = keql f c seen := by
          have hcnt : ∀ y, (keql f c heap).count y = (keql f c seen).count y := by
            intro y
            by_cases hyc : f y = c
            · rw [count_keql_of_class f c y heap hyc, count_keql_of_class f c y seen hyc]
              have h1 := hcntle y
              rcases Nat.lt_or_ge (heap.count y) (seen.count y) with hlt | hge
              · exfalso
                have := hout y hlt
                omega
              · omega
            · rw [count_keql_of_not f c y heap hyc, count_keql_of_not f c y seen hyc]
          have hperm : (keql f c heap).Perm (keql f c seen) :=
            List.perm_iff_count.mpr hcnt
          have hold := hcls c
          rw [hperm.length_eq, List.take_length] at hold
          exact hold.symm
        have hx1 : keql f c [x] = [x] := by
          rw [keql_cons, if_pos hcx]
          simp [keql]
        have hDeq : keql f c D = keql f c seen := by
          rw [← hkeq, hfull]
        rw [hx1, ← hDeq, List.take_length]
      · rw [if_neg hcx]
        have hseenx : keql f c [x] = [] := by
          apply keql_eq_nil_of_forall
          intro z hz
          have hzx : z = x := by simpa using hz
          subst hzx
          omega
        rw [hseenx, List.append_nil, ← hkeq]
        exact hcls c
  · intro y hy
    rw [hcount' y, List.count_append, count_singleton_eq] at hy
    have hDlt : D.count y < seen.count y := by omega
    by_cases hyx : y = x
    · exfalso
      have hheap : heap.count y < seen.count y := by
        rw [hcountheap y, if_neg (by rw [hyx]; intro hq; exact hxmx hq.symm)]
        omega
      have hy2 := hout y hheap
      rw [hyx] at hy2
      omega
    · by_cases hym : mx = y
      · rw [← hym]
        exact hroot'
      · have hheap : heap.count y < seen.count y := by
          rw [hcountheap y, if_neg hym]
          omega
        exact le_trans hroot' (hout y hheap)

theorem hselLoop_inv (f : Int → Int) (m : Nat) (hm : 1 ≤ m) :
    ∀ (rest seen heap : List Int), HInv f m seen heap →
      HInv f m (seen ++ rest) (hselLoop f heap rest) := by
  intro rest
  induction rest with
  | nil =>
    intro seen heap h
    simpa [hselLoop] using h
  | cons x xs ih =>
    intro seen heap h
    have hseq : seen ++ x :: xs = (seen ++ [x]) ++ xs := by simp
    rw [hseq]
    show HInv f m ((seen ++ [x]) ++ xs) (hselLoop f heap (x :: xs))
    simp only [hselLoop]
    split
    case isTrue hacc =>
      exact ih (seen ++ [x]) _ (hinv_accept f m seen heap x hm h hacc)
    case isFalse hrej =>
      exact ih (seen ++ [x]) heap (hinv_reject f m seen heap x h (by omega))

theorem hselHeap_inv (f : Int → Int) (l : List Int) (k : Nat)
    (hk : k < l.length) : HInv f (k + 1) l (hselHeap f l k) := by
  have htlen : (l.take (k + 1)).length = k + 1 := by
    rw [List.length_take]
    omega
  have hinit : HInv f (k + 1) (l.take (k + 1)) (sortByKey f (l.take (k + 1))) := by
    refine ⟨sortByKey_sorted f _, ?_, ?_, ?_⟩
    · rw [sortByKey_length, htlen]
    · intro c
      rw [keql_sortByKey]
      exact List.take_length _
    · intro y hy
      rw [(sortByKey_perm f _).count_eq] at hy
      omega
  have hfin := hselLoop_inv f (k + 1) (by omega) (l.drop (k + 1))
    (l.take (k + 1)) (sortByKey f (l.take (k + 1))) hinit
  rw [List.take_append_drop] at hfin
  exact hfin

theorem hselCore_stableSelect (f : Int → Int) (l : List Int) (k : Nat)
    (hk : k < l.length) : StableSelect f l (hselCore f l k) k := by
  have hinv := hselHeap_inv f l k hk
  have hcntle : ∀ y, (hselHeap f l k).count y ≤ l.count y :=
    hinv_count_le f (k + 1) l (hselHeap f l k) hinv
  obtain ⟨hs, hlen, hcls, hout⟩ := hinv
  have hroot : (hselHeap f l k).length - 1 = k := by omega
  rw [hroot] at hout
  have hperm : (hselHeap f l k ++ l.diff (hselHeap f l k)).Perm l :=
    append_diff_perm _ l hcntle
  unfold hselCore
  refine ⟨hperm, ?_, ?_, ?_⟩
  · intro i hi
    have hik : i < (hselHeap f l k).length := by omega
    have hkk : k < (hselHeap f l k).length := by omega
    show f ((hselHeap f l k ++ l.diff (hselHeap f l k)).getD i 0) ≤ _
    rw [getD_append_left _ _ _ hik, getD_append_left _ _ _ hkk]
    rw [getD_eq_get _ i hik, getD_eq_get _ k hkk]
    exact (List.pairwise_iff_get.mp hs) ⟨i, hik⟩ ⟨k, hkk⟩ hi
  · intro j hj hjlen
    have hkk : k < (hselHeap f l k).length := by omega
    rw [getD_append_left _ _ _ hkk]
    by_cases hjH : j < (hselHeap f l k).length
    · omega
    · have hj' : j = (hselHeap f l k).length + (j - (hselHeap f l k).length) := by
        omega
      rw [hj', getD_append_add]
      have hmem : (l.diff (hselHeap f l k)).getD (j - (hselHeap f l k).length) 0
          ∈ l.diff (hselHeap f l k) := by
        apply getD_mem
        rw [List.length_append] at hjlen
        omega
      exact hout _ (mem_diff_deficit _ l hcntle _ hmem)
  · intro c
    rw [keql_append, keql_diff, ← hcls c]
    rw [diff_take_drop, List.take_append_drop]

/-! ### Nth-element (introselect) -/

/-- Modelled from the spec: introselect (§4.4) — behaves as quickselect but
tracks the partition recursion depth; when the depth budget is exhausted it
switches to the guaranteed heap-based fallback on the whole sub-range. -/
def nselGo (f : Int → Int) : Nat → List Int → Nat → List Int
  | 0, l, k => hselCore f l k
  | d + 1, l, k => qselStep f (nselGo f d) l k

/-- Modelled from the spec: the in-place transformation performed by
`selectlib.nth_element`, with a depth budget proportional to `log₂ n`. -/
def nselCore (f : Int → Int) (l : List Int) (k : Nat) : List Int :=
  nselGo f (2 * Nat.log2 l.length + 1) l k

theorem nselGo_stableSelect (f : Int → Int) :
    ∀ fuel l k, k < l.length → StableSelect f l (nselGo f fuel l k) k := by
  intro fuel
  induction fuel with
  | zero =>
    intro l k hk
    exact hselCore_stableSelect f l k hk
  | succ d ih =>
    intro l k hk
    exact qselStep_stableSelect f (nselGo f d) l k hk
      (fun l' k' _ hk' => ih l' k' hk')

theorem nselCore_stableSelect (f : Int → Int) (l : List Int) (k : Nat)
    (hk : k < l.length) : StableSelect f l (nselCore f l k) k :=
  nselGo_stableSelect f _ l k hk

/-! ### The boundary characterization: the value at the target rank -/

theorem mem_take_getD (l : List Int) (n : Nat) (x : Int) (hx : x ∈ l.take n) :
    ∃ i, i < n ∧ i < l.length ∧ l.getD i 0 = x := by
  induction l generalizing n with
  | nil => simp at hx
  | cons a t ih =>
    cases n with
    | zero => simp at hx
    | succ m =>
      rw [List.take_succ_cons] at hx
      rcases List.mem_cons.mp hx with rfl | hx'
      · exact ⟨0, by omega, by simp, by simp⟩
      · rcases ih m hx' with ⟨i, h1, h2, h3⟩
        exact ⟨i + 1, by omega, by simpa using h2, by simpa using h3⟩

theorem mem_drop_getD (l : List Int) (n : Nat) (x : Int) (hx : x ∈ l.drop n) :
    ∃ j, n ≤ j ∧ j < l.length ∧ l.getD j 0 = x := by
  induction l generalizing n with
  | nil => simp at hx
  | cons a t ih =>
    cases n with
    | zero =>
      rw [List.drop_zero] at hx
      rcases List.mem_iff_get.mp hx with ⟨⟨i, hi⟩, hget⟩
      exact ⟨i, by omega, hi, by rw [getD_eq_get _ _ hi, hget]⟩
    | succ m =>
      rw [List.drop_succ_cons] at hx
      rcases ih m hx with ⟨j, h1, h2, h3⟩
      exact ⟨j + 1, by omega, by simpa using h2, by simpa using h3⟩

theorem getD_append_length (A : List Int) (v : Int) (B : List Int) :
    (A ++ v :: B).getD A.length 0 = v := by
  have h := getD_append_add A (v :: B) 0
  simpa using h

theorem length_split_le (f : Int → Int) (C : Int) :
    ∀ T : List Int, (∀ x ∈ T, f x ≤ C) →
      T.length = (T.filter (fun x => decide (f x < C))).length
        + (keql f C T).length := by
  intro T
  induction T with
  | nil =>
    intro h
    simp [keql]
  | cons a t ih =>
    intro hall
    have ha := hall a (by simp)
    have ht : ∀ x ∈ t, f x ≤ C := fun x hx => hall x (List.mem_cons_of_mem a hx)
    have hiht := ih ht
    rw [keql_cons]
    by_cases hlt : f a < C
    · have hne : ¬ (f a = C) := by omega
      rw [if_neg hne]
      have hfil : List.filter (fun x => decide (f x < C)) (a :: t)
          = a :: List.filter (fun x => decide (f x < C)) t := by
        simp [List.filter_cons, hlt]
      rw [hfil]
      simp only [List.length_cons]
      omega
    · have heq : f a = C := by omega
      rw [if_pos heq]
      have hfil : List.filter (fun x => decide (f x < C)) (a :: t)
          = List.filter (fun x => decide (f x < C)) t := by
        simp [List.filter_cons, hlt]
      rw [hfil]
      simp only [List.length_cons]
      omega

theorem boundary_decomp (r : List Int) (k : Nat) (hk : k < r.length) :
    r = r.take k ++ r.getD k 0 :: r.drop (k + 1) := by
  conv_lhs => rw [← List.take_append_drop k r]
  rw [drop_eq_getD_cons r k hk]

theorem boundary_getD_keql (f : Int → Int) (r : List Int) (k : Nat)
    (hk : k < r.length)
    (hlow : ∀ i, i < k → f (r.getD i 0) ≤ f (r.getD k 0))
    (hhigh : ∀ j, k < j → j < r.length → f (r.getD k 0) ≤ f (r.getD j 0)) :
    cntLt f (f (r.getD k 0)) r ≤ k ∧
    k + 1 ≤ (r.filter (fun x => decide (f x ≤ f (r.getD k 0)))).length ∧
    r.getD k 0 = (keql f (f (r.getD k 0)) r).getD (k - cntLt f (f (r.getD k 0)) r) 0 := by
  set v := r.getD k 0 with hv
  set C := f v with hC
  have hT : ∀ x ∈ r.take k, f x ≤ C := by
    intro x hx
    rcases mem_take_getD r k x hx with ⟨i, hik, hil, hgi⟩
    rw [← hgi]
    exact hlow i hik
  have hB : ∀ x ∈ r.drop (k + 1), C ≤ f x := by
    intro x hx
    rcases mem_drop_getD r (k + 1) x hx with ⟨j, hjk, hjl, hgj⟩
    rw [← hgj]
    exact hhigh j (by omega) hjl
  have hdec : r = r.take k ++ v :: r.drop (k + 1) := boundary_decomp r k hk
  have hTlen : (r.take k).length = k := by
    rw [List.length_take]
    omega
  have hcnt : cntLt f C r = cntLt f C (r.take k) := by
    show (r.filter _).length = _
    conv_lhs => rw [hdec]
    rw [List.filter_append, List.filter_cons]
    have hvC : decide (f v < C) = false := by simp [hC]
    rw [hvC, if_neg (by simp)]
    have hBnil : (r.drop (k + 1)).filter (fun x => decide (f x < C)) = [] := by
      apply List.filter_eq_nil_iff.mpr
      intro a ha
      have hBa := hB a ha
      simp
      omega
    rw [hBnil, List.append_nil]
    rfl
  have h1 : cntLt f C r ≤ k := by
    rw [hcnt]
    calc cntLt f C (r.take k) ≤ (r.take k).length := List.length_filter_le _ _
      _ = k := hTlen
  have h2 : k + 1 ≤ (r.filter (fun x => decide (f x ≤ C))).length := by
    conv_rhs => rw [hdec]
    rw [List.filter_append, List.filter_cons]
    have hvC : decide (f v ≤ C) = true := by simp [hC]
    rw [hvC, if_pos rfl]
    have hTfull : (r.take k).filter (fun x => decide (f x ≤ C)) = r.take k := by
      apply List.filter_eq_self.mpr
      intro a ha
      simp [hT a ha]
    rw [hTfull, List.length_append, List.length_cons, hTlen]
    omega
  have hkeqd : keql f C r = keql f C (r.take k) ++ v :: keql f C (r.drop (k + 1)) := by
    conv_lhs => rw [hdec]
    rw [keql_append, keql_cons, if_pos hC.symm]
  have hclslen : (keql f C (r.take k)).length = k - cntLt f C r := by
    have hsplit := length_split_le f C (r.take k) hT
    rw [hTlen] at hsplit
    rw [hcnt]
    unfold cntLt
    omega
  refine ⟨h1, h2, ?_⟩
  rw [hkeqd, ← hclslen, getD_append_length]

theorem boundary_key_unique (f : Int → Int) (l r s : List Int) (k : Nat)
    (hk : k < l.length) (hrp : r.Perm l) (hsp : s.Perm l)
    (hrlow : ∀ i, i < k → f (r.getD i 0) ≤ f (r.getD k 0))
    (hrhigh : ∀ j, k < j → j < r.length → f (r.getD k 0) ≤ f (r.getD j 0))
    (hslow : ∀ i, i < k → f (s.getD i 0) ≤ f (s.getD k 0))
    (hshigh : ∀ j, k < j → j < s.length → f (s.getD k 0) ≤ f (s.getD j 0)) :
    f (r.getD k 0) = f (s.getD k 0) := by
  have hkr : k < r.length := by rw [hrp.length_eq]; exact hk
  have hks : k < s.length := by rw [hsp.length_eq]; exact hk
  obtain ⟨hr1, hr2, -⟩ := boundary_getD_keql f r k hkr hrlow hrhigh
  obtain ⟨hs1, hs2, -⟩ := boundary_getD_keql f s k hks hslow hshigh
  unfold cntLt at hr1 hs1
  by_contra hne
  rcases lt_or_gt_of_ne hne with hlt | hgt
  · have hmono : (l.filter (fun x => decide (f x ≤ f (r.getD k 0)))).length
        ≤ (l.filter (fun x => decide (f x < f (s.getD k 0)))).length := by
      rw [← List.countP_eq_length_filter, ← List.countP_eq_length_filter]
      apply List.countP_mono_left
      intro x hx hq
      simp only [decide_eq_true_eq] at hq ⊢
      omega
    have e1 := ((hrp.filter (fun x => decide (f x ≤ f (r.getD k 0)))).length_eq)
    have e2 := ((hsp.filter (fun x => decide (f x < f (s.getD k 0)))).length_eq)
    omega
  · have hmono : (l.filter (fun x => decide (f x ≤ f (s.getD k 0)))).length
        ≤ (l.filter (fun x => decide (f x < f (r.getD k 0)))).length := by
      rw [← List.countP_eq_length_filter, ← List.countP_eq_length_filter]
      apply List.countP_mono_left
      intro x hx hq
      simp only [decide_eq_true_eq] at hq ⊢
      omega
    have e1 := ((hsp.filter (fun x => decide (f x ≤ f (s.getD k 0)))).length_eq)
    have e2 := ((hrp.filter (fun x => decide (f x < f (r.getD k 0)))).length_eq)
    omega

theorem stableSelect_getD_eq_sort (f : Int → Int) (l r : List Int) (k : Nat)
    (hk : k < l.length) (hsel : StableSelect f l r k) :
    r.getD k 0 = (sortByKey f l).getD k 0 := by
  obtain ⟨hperm, hlow, hhigh, hcls⟩ := hsel
  set s := sortByKey f l with hs
  have hsperm : s.Perm l := sortByKey_perm f l
  have hslen : s.length = l.length := sortByKey_length f l
  have hks : k < s.length := by omega
  have hkr : k < r.length := by rw [hperm.length_eq]; exact hk
  have hssorted : KSorted f s := sortByKey_sorted f l
  have hslow : ∀ i, i < k → f (s.getD i 0) ≤ f (s.getD k 0) := by
    intro i hi
    rw [getD_eq_get s i (by omega), getD_eq_get s k hks]
    exact (List.pairwise_iff_get.mp hssorted) _ _ hi
  have hshigh : ∀ j, k < j → j < s.length → f (s.getD k 0) ≤ f (s.getD j 0) := by
    intro j h1 h2
    rw [getD_eq_get s j h2, getD_eq_get s k hks]
    exact (List.pairwise_iff_get.mp hssorted) _ _ h1
  have hkey : f (r.getD k 0) = f (s.getD k 0) :=
    boundary_key_unique f l r s k hk hperm hsperm hlow hhigh hslow hshigh
  obtain ⟨-, -, hr3⟩ := boundary_getD_keql f r k hkr hlow hhigh
  obtain ⟨-, -, hs3⟩ := boundary_getD_keql f s k hks hslow hshigh
  rw [hr3, hs3, hkey]
  have hclseq : keql f (f (s.getD k 0)) r = keql f (f (s.getD k 0)) s := by
    rw [hcls, hs, keql_sortByKey]
  have hcnteq : cntLt f (f (s.getD k 0)) r = cntLt f (f (s.getD k 0)) s := by
    show (r.filter _).length = (s.filter _).length
    rw [(hperm.filter _).length_eq, (hsperm.filter _).length_eq]
  rw [hclseq, hcnteq]

theorem take_succ_getD (r : List Int) (k : Nat) (hk : k < r.length) :
    r.take (k + 1) = r.take k ++ [r.getD k 0] := by
  conv_lhs => rw [boundary_decomp r k hk]
  rw [List.take_append_eq_append_take]
  have h1 : (r.take k).length = k := by
    rw [List.length_take]
    omega
  rw [List.take_of_length_le (by omega), h1]
  simp

theorem filter_two_perm (f : Int → Int) (C : Int) :
    ∀ T : List Int, (∀ x ∈ T, f x ≤ C) →
      T.Perm (T.filter (fun x => decide (f x < C)) ++ keql f C T) := by
  intro T
  induction T with
  | nil => simp [keql]
  | cons a t ih =>
    intro hall
    have ha := hall a (by simp)
    have ht : ∀ x ∈ t, f x ≤ C := fun x hx => hall x (List.mem_cons_of_mem a hx)
    rw [List.filter_cons, keql_cons]
    by_cases hlt : f a < C
    · have hne : ¬ (f a = C) := by omega
      have hd : decide (f a < C) = true := by simp [hlt]
      rw [hd, if_neg hne]
      simp only [cond_true, List.cons_append]
      exact (ih ht).cons a
    · have heq : f a = C := by omega
      have hd : decide (f a < C) = false := by simp [hlt]
      rw [hd, if_pos heq]
      exact ((ih ht).cons a).trans List.perm_middle.symm

theorem boundary_take_perm (f : Int → Int) (r : List Int) (k : Nat)
    (hk : k < r.length)
    (hlow : ∀ i, i < k → f (r.getD i 0) ≤ f (r.getD k 0))
    (hhigh : ∀ j, k < j → j < r.length → f (r.getD k 0) ≤ f (r.getD j 0)) :
    (r.take (k + 1)).Perm
      ((r.filter (fun x => decide (f x < f (r.getD k 0)))) ++
        ((keql f (f (r.getD k 0)) r).take (k + 1 - cntLt f (f (r.getD k 0)) r))) := by
  set v := r.getD k 0 with hv
  set C := f v with hC
  have hT : ∀ x ∈ r.take k, f x ≤ C := by
    intro x hx
    rcases mem_take_getD r k x hx with ⟨i, hik, hil, hgi⟩
    rw [← hgi]
    exact hlow i hik
  have hB : ∀ x ∈ r.drop (k + 1), C ≤ f x := by
    intro x hx
    rcases mem_drop_getD r (k + 1) x hx with ⟨j, hjk, hjl, hgj⟩
    rw [← hgj]
    exact hhigh j (by omega) hjl
  have hdec : r = r.take k ++ v :: r.drop (k + 1) := boundary_decomp r k hk
  have hTlen : (r.take k).length = k := by
    rw [List.length_take]
    omega
  -- the strictly-smaller elements of r form exactly those of the prefix
  have hfeq : r.filter (fun x => decide (f x < C))
      = (r.take k).filter (fun x => decide (f x < C)) := by
    conv_lhs => rw [hdec]
    rw [List.filter_append, List.filter_cons]
    have hvC : decide (f v < C) = false := by simp [hC]
    rw [hvC, if_neg (by simp)]
    have hBnil : (r.drop (k + 1)).filter (fun x => decide (f x < C)) = [] := by
      apply List.filter_eq_nil_iff.mpr
      intro a ha
      have hBa := hB a ha
      simp
      omega
    rw [hBnil, List.append_nil]
  -- the class of the boundary value in r, cut after the boundary occurrence
  have hkeqd : keql f C r = keql f C (r.take k) ++ v :: keql f C (r.drop (k + 1)) := by
    conv_lhs => rw [hdec]
    rw [keql_append, keql_cons, if_pos hC.symm]
  have hcnt : cntLt f C r = cntLt f C (r.take k) := by
    show (r.filter _).length = _
    rw [hfeq]
    rfl
  have hsplit := length_split_le f C (r.take k) hT
  rw [hTlen] at hsplit
  have hclslen : (keql f C (r.take k)).length = k - cntLt f C r := by
    rw [hcnt]
    unfold cntLt
    omega
  have hcntk : cntLt f C r ≤ k := by
    rw [hcnt]
    unfold cntLt
    omega
  have htake : (keql f C r).take (k + 1 - cntLt f C r)
      = keql f C (r.take k) ++ [v] := by
    rw [hkeqd, List.take_append_eq_append_take]
    rw [List.take_of_length_le (by rw [hclslen]; omega)]
    rw [hclslen]
    have hone : k + 1 - cntLt f C r - (k - cntLt f C r) = 1 := by omega
    rw [hone]
    simp
  rw [take_succ_getD r k hk, htake, hfeq, ← List.append_assoc]
  exact (filter_two_perm f C (r.take k) hT).append_right [v]

theorem stableSelect_take_perm (f : Int → Int) (l r : List Int) (k : Nat)
    (hk : k < l.length) (hsel : StableSelect f l r k) :
    (r.take (k + 1)).Perm ((sortByKey f l).take (k + 1)) := by
  obtain ⟨hperm, hlow, hhigh, hcls⟩ := hsel
  set s := sortByKey f l with hs
  have hsperm : s.Perm l := sortByKey_perm f l
  have hks : k < s.length := by
    rw [hsperm.length_eq]
    exact hk
  have hkr : k < r.length := by
    rw [hperm.length_eq]
    exact hk
  have hssorted : KSorted f s := sortByKey_sorted f l
  have hslow : ∀ i, i < k → f (s.getD i 0) ≤ f (s.getD k 0) := by
    intro i hi
    rw [getD_eq_get s i (by omega), getD_eq_get s k hks]
    exact (List.pairwise_iff_get.mp hssorted) _ _ hi
  have hshigh : ∀ j, k < j → j < s.length → f (s.getD k 0) ≤ f (s.getD j 0) := by
    intro j h1 h2
    rw [getD_eq_get s j h2, getD_eq_get s k hks]
    exact (List.pairwise_iff_get.mp hssorted) _ _ h1
  have hkey : f (r.getD k 0) = f (s.getD k 0) :=
    boundary_key_unique f l r s k hk hperm hsperm hlow hhigh hslow hshigh
  have hr := boundary_take_perm f r k hkr hlow hhigh
  have hsx := boundary_take_perm f s k hks hslow hshigh
  rw [hkey] at hr
  -- the two right-hand sides are permutations of each other
  have hfilperm : (r.filter (fun x => decide (f x < f (s.getD k 0)))).Perm
      (s.filter (fun x => decide (f x < f (s.getD k 0)))) :=
    (hperm.filter _).trans (hsperm.filter _).symm
  have hclseq : keql f (f (s.getD k 0)) r = keql f (f (s.getD k 0)) s := by
    rw [hcls, hs, keql_sortByKey]
  have hcnteq : cntLt f (f (s.getD k 0)) r = cntLt f (f (s.getD k 0)) s := by
    show (r.filter _).length = (s.filter _).length
    rw [(hperm.filter _).length_eq, (hsperm.filter _).length_eq]
  rw [hclseq, hcnteq] at hr
  exact (hr.trans (hfilperm.append_right _)).trans hsx.symm

theorem stableSelect_sort_eq (f : Int → Int) (l r : List Int) (k : Nat)
    (hsel : StableSelect f l r k) : sortByKey f r = sortByKey f l := by
  apply sorted_keql_ext f _ _ (sortByKey_sorted f r) (sortByKey_sorted f l)
  intro c
  rw [keql_sortByKey, keql_sortByKey]
  exact hsel.2.2.2 c

/-! ### Entry points, validation and error signalling -/

/-- A python object handed to a selectlib entry point: either a mutable list
of integers, or some other, non-sequence object (as in
`test_non_list_input`). -/
inductive PyObj where
  | pylist (xs : List Int)
  | other
deriving DecidableEq

/-- The two error classes of §7 — python surfaces `InvalidArgument` as
`TypeError` and `IndexOutOfRange` as `IndexError`. -/
inductive SelectErr where
  | invalidArgument
  | indexOutOfRange
deriving DecidableEq

/-- Modelled from the spec: an entry point validates its input before any
mutation — a non-sequence is rejected with `InvalidArgument`; a rank that is
negative or at least the length (hence any rank on an empty sequence) with
`IndexOutOfRange` — and otherwise runs its algorithm core in place.  The
returned pair is the error signal (if any) together with the final state of
the caller's object, which is unchanged whenever an error is signalled. -/
def runSelect (core : (Int → Int) → List Int → Nat → List Int)
    (f : Int → Int) (v : PyObj) (k : Int) : Option SelectErr × PyObj :=
  match v with
  | .other => (some .invalidArgument, v)
  | .pylist xs =>
    if k < 0 ∨ (xs.length : Int) ≤ k then (some .indexOutOfRange, .pylist xs)
    else (none, .pylist (core f xs k.toNat))

/-- Modelled from the spec: the `selectlib.quickselect` entry point. -/
def quickselect (v : PyObj) (k : Int) (f : Int → Int) : Option SelectErr × PyObj :=
  runSelect qselCore f v k

/-- Modelled from the spec: the `selectlib.heapselect` entry point. -/
def heapselect (v : PyObj) (k : Int) (f : Int → Int) : Option SelectErr × PyObj :=
  runSelect hselCore f v k

/-- Modelled from the spec: the `selectlib.nth_element` entry point. -/
def nth_element (v : PyObj) (k : Int) (f : Int → Int) : Option SelectErr × PyObj :=
  runSelect nselCore f v k

/-- The list carried by a python object (a non-list carries none). -/
def stateList (v : PyObj) : List Int :=
  match v with
  | .pylist xs => xs
  | .other => []

theorem runSelect_valid (core : (Int → Int) → List Int → Nat → List Int)
    (f : Int → Int) (xs : List Int) (k : Nat) (hk : k < xs.length) :
    runSelect core f (.pylist xs) (k : Int) = (none, .pylist (core f xs k)) := by
  simp only [runSelect]
  rw [if_neg (by omega)]
  congr

/-! ### The benchmark drivers -/

/-- From `benchmark.py` (`bench_sort`): sort a copy of the list and return
the first `K` smallest items. -/
def bench_sort (values : List Int) (K : Nat) : List Int :=
  (sortByKey id values).take K

/-- From `benchmark.py` (`bench_quickselect`): partition a copy with
`selectlib.quickselect` at rank `K-1`, then sort and return the first `K`
elements. -/
def bench_quickselect (values : List Int) (K : Nat) : List Int :=
  sortByKey id ((stateList (quickselect (.pylist values) ((K : Int) - 1) id).2).take K)

/-- From `benchmark.py` (`bench_heapselect`): partition a copy with
`selectlib.heapselect` at rank `K-1`, then sort and return the first `K`
elements. -/
def bench_heapselect (values : List Int) (K : Nat) : List Int :=
  sortByKey id ((stateList (heapselect (.pylist values) ((K : Int) - 1) id).2).take K)

/-- From `benchmark.py` (`bench_nth_element`): partition a copy with
`selectlib.nth_element` at rank `K-1`, then sort and return the first `K`
elements. -/
def bench_nth_element (values : List Int) (K : Nat) : List Int :=
  sortByKey id ((stateList (nth_element (.pylist values) ((K : Int) - 1) id).2).take K)

/-- From `benchmark_median.py` (`bench_median_low`), with python's
`statistics.median_low` modelled from its documentation: the element at
index `(n-1)//2` of the sorted copy. -/
def bench_median_low (values : List Int) : Int :=
  (sortByKey id values).getD ((values.length - 1) / 2) 0

/-- From `benchmark_median.py` (`bench_nth_element`): reposition the low
median with `selectlib.nth_element` and read it off. -/
def bench_nth_element_median (values : List Int) : Int :=
  (stateList (nth_element (.pylist values)
    (((values.length - 1) / 2 : Nat) : Int) id).2).getD ((values.length - 1) / 2) 0

/-- From `benchmark_median.py` (`bench_quickselect`): reposition the low
median with `selectlib.quickselect` and read it off. -/
def bench_quickselect_median (values : List Int) : Int :=
  (stateList (quickselect (.pylist values)
    (((values.length - 1) / 2 : Nat) : Int) id).2).getD ((values.length - 1) / 2) 0

/-- From `benchmark_median.py` (`bench_heapselect`): reposition the low
median with `selectlib.heapselect` and read it off. -/
def bench_heapselect_median (values : List Int) : Int :=
  (stateList (heapselect (.pylist values)
    (((values.length - 1) / 2 : Nat) : Int) id).2).getD ((values.length - 1) / 2) 0

/-! ### Generic consequences used by several claims -/

theorem sortByKey_id_eq_of_perm (l₁ l₂ : List Int) (h : l₁.Perm l₂) :
    sortByKey id l₁ = sortByKey id l₂ := by
  have hp : (sortByKey id l₁).Perm (sortByKey id l₂) :=
    (sortByKey_perm id l₁).trans (h.trans (sortByKey_perm id l₂).symm)
  have hs1 : List.Sorted (fun a b : Int => a ≤ b) (sortByKey id l₁) :=
    (sortByKey_sorted id l₁).imp (fun hab => hab)
  have hs2 : List.Sorted (fun a b : Int => a ≤ b) (sortByKey id l₂) :=
    (sortByKey_sorted id l₂).imp (fun hab => hab)
  exact List.eq_of_perm_of_sorted hp hs1 hs2

theorem ksorted_take (f : Int → Int) (l : List Int) (n : Nat)
    (h : KSorted f l) : KSorted f (l.take n) :=
  List.Pairwise.sublist (List.take_sublist n l) h

/-! ### The observable contract at a valid rank -/

/-- The observable postcondition of §4/§8 for a call on `xs` with rank `k`
leaving the sequence in state `r`: the element at `k` is the one the stable
reference sort puts there, and the partition invariant holds around it under
the effective key. -/
def SelectSpec (f : Int → Int) (xs r : List Int) (k : Nat) : Prop :=
  r.getD k 0 = (sortByKey f xs).getD k 0 ∧
  (∀ i, i < k → f (r.getD i 0) ≤ f (r.getD k 0)) ∧
  (∀ j, k < j → j < r.length → f (r.getD k 0) ≤ f (r.getD j 0))

theorem stableSelect_spec (f : Int → Int) (xs r : List Int) (k : Nat)
    (hk : k < xs.length) (h : StableSelect f xs r k) : SelectSpec f xs r k :=
  ⟨stableSelect_getD_eq_sort f xs r k hk h, h.2.1, h.2.2.1⟩

theorem quickselect_state (f : Int → Int) (xs : List Int) (k : Nat)
    (hk : k < xs.length) :
    stateList (quickselect (.pylist xs) (k : Int) f).2 = qselCore f xs k := by
  unfold quickselect
  rw [runSelect_valid qselCore f xs k hk]
  rfl

theorem heapselect_state (f : Int → Int) (xs : List Int) (k : Nat)
    (hk : k < xs.length) :
    stateList (heapselect (.pylist xs) (k : Int) f).2 = hselCore f xs k := by
  unfold heapselect
  rw [runSelect_valid hselCore f xs k hk]
  rfl

theorem nth_element_state (f : Int → Int) (xs : List Int) (k : Nat)
    (hk : k < xs.length) :
    stateList (nth_element (.pylist xs) (k : Int) f).2 = nselCore f xs k := by
  unfold nth_element
  rw [runSelect_valid nselCore f xs k hk]
  rfl

theorem quickselect_selectSpec (f : Int → Int) (xs : List Int) (k : Nat)
    (hk : k < xs.length) :
    SelectSpec f xs (stateList (quickselect (.pylist xs) (k : Int) f).2) k := by
  rw [quickselect_state f xs k hk]
  exact stableSelect_spec f xs _ k hk (qselCore_stableSelect f xs k hk)

theorem heapselect_selectSpec (f : Int → Int) (xs : List Int) (k : Nat)
    (hk : k < xs.length) :
    SelectSpec f xs (stateList (heapselect (.pylist xs) (k : Int) f).2) k := by
  rw [heapselect_state f xs k hk]
  exact stableSelect_spec f xs _ k hk (hselCore_stableSelect f xs k hk)

theorem nth_element_selectSpec (f : Int → Int) (xs : List Int) (k : Nat)
    (hk : k < xs.length) :
    SelectSpec f xs (stateList (nth_element (.pylist xs) (k : Int) f).2) k := by
  rw [nth_element_state f xs k hk]
  exact stableSelect_spec f xs _ k hk (nselCore_stableSelect f xs k hk)

/-! ### The claims -/

/-- Claim C1: for every sequence, every valid rank `k` and each of the three
entry points (with or without a key function), after the call the element at
index `k` equals `sorted(S)[k]` under the effective ordering, every earlier
element compares at most it and every later element at least it; in
particular on `S = [5,1,3,5,2,5,4,1,3]` with `k = 4` all three entry points
leave `3` at index 4, with `S[0:4]` at most 3 and `S[5:]` at least 3. -/
theorem claim_C1 :
    (∀ (f : Int → Int) (xs : List Int) (k : Nat), k < xs.length →
      SelectSpec f xs (stateList (quickselect (.pylist xs) (k : Int) f).2) k ∧
      SelectSpec f xs (stateList (heapselect (.pylist xs) (k : Int) f).2) k ∧
      SelectSpec f xs (stateList (nth_element (.pylist xs) (k : Int) f).2) k) ∧
    ((stateList (quickselect (.pylist [5,1,3,5,2,5,4,1,3]) 4 id).2).getD 4 0 = 3 ∧
      (∀ x ∈ (stateList (quickselect (.pylist [5,1,3,5,2,5,4,1,3]) 4 id).2).take 4, x ≤ 3) ∧
      (∀ x ∈ (stateList (quickselect (.pylist [5,1,3,5,2,5,4,1,3]) 4 id).2).drop 5, 3 ≤ x)) ∧
    ((stateList (heapselect (.pylist [5,1,3,5,2,5,4,1,3]) 4 id).2).getD 4 0 = 3 ∧
      (∀ x ∈ (stateList (heapselect (.pylist [5,1,3,5,2,5,4,1,3]) 4 id).2).take 4, x ≤ 3) ∧
      (∀ x ∈ (stateList (heapselect (.pylist [5,1,3,5,2,5,4,1,3]) 4 id).2).drop 5, 3 ≤ x)) ∧
    ((stateList (nth_element (.pylist [5,1,3,5,2,5,4,1,3]) 4 id).2).getD 4 0 = 3 ∧
      (∀ x ∈ (stateList (nth_element (.pylist [5,1,3,5,2,5,4,1,3]) 4 id).2).take 4, x ≤ 3) ∧
      (∀ x ∈ (stateList (nth_element (.pylist [5,1,3,5,2,5,4,1,3]) 4 id).2).drop 5, 3 ≤ x)) := by
  refine ⟨?_, by decide, by decide, by decide⟩
  intro f xs k hk
  exact ⟨quickselect_selectSpec f xs k hk, heapselect_selectSpec f xs k hk,
    nth_element_selectSpec f xs k hk⟩

/-- Witness for C1: the universally quantified part applied at a concrete
sequence and rank. -/
theorem claim_C1_witness :
    (1 : Nat) < ([3, 1, 2] : List Int).length ∧
    SelectSpec id [3, 1, 2]
      (stateList (quickselect (.pylist [3, 1, 2]) ((1 : Nat) : Int) id).2) 1 :=
  ⟨by decide, (claim_C1.1 id [3, 1, 2] 1 (by decide)).1⟩

/-- Claim C3: for every sequence, valid rank and key function (or none),
the three entry points, each run on its own copy, put the same value at
index `k`. -/
theorem claim_C3 :
    ∀ (f : Int → Int) (xs : List Int) (k : Nat), k < xs.length →
      (stateList (quickselect (.pylist xs) (k : Int) f).2).getD k 0
          = (stateList (heapselect (.pylist xs) (k : Int) f).2).getD k 0 ∧
      (stateList (heapselect (.pylist xs) (k : Int) f).2).getD k 0
          = (stateList (nth_element (.pylist xs) (k : Int) f).2).getD k 0 := by
  intro f xs k hk
  have h1 := (quickselect_selectSpec f xs k hk).1
  have h2 := (heapselect_selectSpec f xs k hk).1
  have h3 := (nth_element_selectSpec f xs k hk).1
  exact ⟨h1.trans h2.symm, h2.trans h3.symm⟩

/-- Witness for C3 at a concrete sequence and rank. -/
theorem claim_C3_witness :
    (0 : Nat) < ([2, 1] : List Int).length ∧
    (stateList (quickselect (.pylist [2, 1]) ((0 : Nat) : Int) id).2).getD 0 0
      = (stateList (heapselect (.pylist [2, 1]) ((0 : Nat) : Int) id).2).getD 0 0 :=
  ⟨by decide, (claim_C3 id [2, 1] 0 (by decide)).1⟩

/-- Claim C4: a successful call of any entry point only reorders: the final
sequence is a permutation of the input (same multiset) with the same
length; the model is a pure function of the input, so there is no other
observable effect. -/
theorem claim_C4 :
    ∀ (f : Int → Int) (xs : List Int) (k : Nat), k < xs.length →
      ((stateList (quickselect (.pylist xs) (k : Int) f).2).Perm xs ∧
        (stateList (quickselect (.pylist xs) (k : Int) f).2).length = xs.length) ∧
      ((stateList (heapselect (.pylist xs) (k : Int) f).2).Perm xs ∧
        (stateList (heapselect (.pylist xs) (k : Int) f).2).length = xs.length) ∧
      ((stateList (nth_element (.pylist xs) (k : Int) f).2).Perm xs ∧
        (stateList (nth_element (.pylist xs) (k : Int) f).2).length = xs.length) := by
  intro f xs k hk
  rw [quickselect_state f xs k hk, heapselect_state f xs k hk,
    nth_element_state f xs k hk]
  have hq := (qselCore_stableSelect f xs k hk).1
  have hh := (hselCore_stableSelect f xs k hk).1
  have hn := (nselCore_stableSelect f xs k hk).1
  exact ⟨⟨hq, hq.length_eq⟩, ⟨hh, hh.length_eq⟩, ⟨hn, hn.length_eq⟩⟩

/-- Witness for C4 at a concrete sequence and rank. -/
theorem claim_C4_witness :
    (0 : Nat) < ([7, 5] : List Int).length ∧
    (stateList (quickselect (.pylist [7, 5]) ((0 : Nat) : Int) id).2).Perm [7, 5] :=
  ⟨by decide, ((claim_C4 id [7, 5] 0 (by decide)).1).1⟩

/-- Claim C2: an entry point called on a non-sequence signals
`InvalidArgument`; called on a sequence of length `n` with a rank that is
negative or at least `n` (so on any rank for the empty sequence) it signals
`IndexOutOfRange`; and exactly the remaining, valid inputs signal no error —
identically for all three entry points. -/
theorem claim_C2 :
    ∀ (f : Int → Int) (v : PyObj) (k : Int),
      ((quickselect v k f).1 = some .invalidArgument ↔ v = .other) ∧
      ((quickselect v k f).1 = some .indexOutOfRange ↔
        ∃ xs, v = .pylist xs ∧ (k < 0 ∨ (xs.length : Int) ≤ k)) ∧
      ((quickselect v k f).1 = none ↔
        ∃ xs, v = .pylist xs ∧ 0 ≤ k ∧ k < (xs.length : Int)) ∧
      (heapselect v k f).1 = (quickselect v k f).1 ∧
      (nth_element v k f).1 = (quickselect v k f).1 := by
  intro f v k
  cases v with
  | other =>
    refine ⟨by simp [quickselect, runSelect], ?_, ?_, ?_, ?_⟩
    · simp [quickselect, runSelect]
    · simp [quickselect, runSelect]
    · simp [quickselect, heapselect, runSelect]
    · simp [quickselect, nth_element, runSelect]
  | pylist xs =>
    by_cases hk : k < 0 ∨ (xs.length : Int) ≤ k
    · refine ⟨?_, ?_, ?_, ?_, ?_⟩
      · simp [quickselect, runSelect, hk]
      · simp only [quickselect, runSelect, if_pos hk]
        constructor
        · intro _
          exact ⟨xs, rfl, hk⟩
        · intro _
          trivial
      · simp only [quickselect, runSelect, if_pos hk]
        constructor
        · intro h
          exact absurd h (by simp)
        · rintro ⟨ys, hys, h0, hlen⟩
          have : ys = xs := by
            injection hys.symm
          subst this
          omega
      · simp [quickselect, heapselect, runSelect, hk]
      · simp [quickselect, nth_element, runSelect, hk]
    · refine ⟨?_, ?_, ?_, ?_, ?_⟩
      · simp [quickselect, runSelect, hk]
      · simp only [quickselect, runSelect, if_neg hk]
        constructor
        · intro h
          exact absurd h (by simp)
        · rintro ⟨ys, hys, h⟩
          have : ys = xs := by
            injection hys.symm
          subst this
          omega
      · simp only [quickselect, runSelect, if_neg hk]
        constructor
        · intro _
          exact ⟨xs, rfl, by omega, by omega⟩
        · intro _
          trivial
      · simp [quickselect, heapselect, runSelect, hk]
      · simp [quickselect, nth_element, runSelect, hk]

/-- Claim C5: with the key `lambda x: -x`, each entry point places at index
`k` the `k`-th entry of `sorted(S, key=lambda x: -x)` (the `k`-th largest
under natural order — that reference list is sorted in non-increasing
natural order), and the partition invariant holds under the negated key. -/
theorem claim_C5 :
    ∀ (xs : List Int) (k : Nat), k < xs.length →
      SelectSpec (fun x => -x) xs
        (stateList (quickselect (.pylist xs) (k : Int) (fun x => -x)).2) k ∧
      SelectSpec (fun x => -x) xs
        (stateList (heapselect (.pylist xs) (k : Int) (fun x => -x)).2) k ∧
      SelectSpec (fun x => -x) xs
        (stateList (nth_element (.pylist xs) (k : Int) (fun x => -x)).2) k ∧
      List.Pairwise (fun a b : Int => b ≤ a) (sortByKey (fun x => -x) xs) := by
  intro xs k hk
  refine ⟨quickselect_selectSpec _ xs k hk, heapselect_selectSpec _ xs k hk,
    nth_element_selectSpec _ xs k hk, ?_⟩
  exact (sortByKey_sorted (fun x => -x) xs).imp (fun hab => by simpa using hab)

/-- Witness for C5 at a concrete sequence and rank. -/
theorem claim_C5_witness :
    (1 : Nat) < ([4, 9, 6] : List Int).length ∧
    SelectSpec (fun x => -x) [4, 9, 6]
      (stateList (quickselect (.pylist [4, 9, 6]) ((1 : Nat) : Int) (fun x => -x)).2) 1 :=
  ⟨by decide, (claim_C5 [4, 9, 6] 1 (by decide)).1⟩

/-- Claim C6: whenever a call to an entry point signals an error, the
caller's object is returned exactly as it was — the errors are detected
before any mutation. -/
theorem claim_C6 :
    ∀ (f : Int → Int) (v : PyObj) (k : Int) (e : SelectErr),
      ((quickselect v k f).1 = some e → (quickselect v k f).2 = v) ∧
      ((heapselect v k f).1 = some e → (heapselect v k f).2 = v) ∧
      ((nth_element v k f).1 = some e → (nth_element v k f).2 = v) := by
  intro f v k e
  cases v with
  | other => exact ⟨fun _ => rfl, fun _ => rfl, fun _ => rfl⟩
  | pylist xs =>
    by_cases hk : k < 0 ∨ (xs.length : Int) ≤ k
    · refine ⟨fun _ => ?_, fun _ => ?_, fun _ => ?_⟩ <;>
        simp [quickselect, heapselect, nth_element, runSelect, hk]
    · refine ⟨fun h => ?_, fun h => ?_, fun h => ?_⟩ <;>
        simp [quickselect, heapselect, nth_element, runSelect, hk] at h

/-- Witness for C6: a non-sequence input errors and the object is unchanged. -/
theorem claim_C6_witness :
    (quickselect .other 0 id).1 = some SelectErr.invalidArgument ∧
    (quickselect .other 0 id).2 = PyObj.other :=
  ⟨by decide, (claim_C6 id .other 0 .invalidArgument).1 (by decide)⟩

theorem rerun_core (core : (Int → Int) → List Int → Nat → List Int)
    (hcore : ∀ (f : Int → Int) (l : List Int) (k : Nat), k < l.length →
      StableSelect f l (core f l k) k)
    (f : Int → Int) (xs : List Int) (k : Nat) (hk : k < xs.length) :
    (core f (core f xs k) k).getD k 0 = (core f xs k).getD k 0 ∧
    SelectSpec f (core f xs k) (core f (core f xs k) k) k := by
  have h1 := hcore f xs k hk
  have hk1 : k < (core f xs k).length := by
    rw [h1.1.length_eq]
    exact hk
  have h2 := hcore f (core f xs k) k hk1
  have hspec2 : SelectSpec f (core f xs k) (core f (core f xs k) k) k :=
    stableSelect_spec f _ _ k hk1 h2
  refine ⟨?_, hspec2⟩
  rw [hspec2.1, stableSelect_sort_eq f xs (core f xs k) k h1]
  exact (stableSelect_getD_eq_sort f xs (core f xs k) k hk h1).symm

/-- Claim C7: running the same entry point a second time, on the output of
the first run with the same rank, leaves the value at index `k` unchanged,
and the partition invariant (the full contract relative to the
once-partitioned sequence) still holds after the second run. -/
theorem claim_C7 :
    ∀ (f : Int → Int) (xs : List Int) (k : Nat), k < xs.length →
      ((stateList (quickselect (.pylist (stateList (quickselect (.pylist xs)
              (k : Int) f).2)) (k : Int) f).2).getD k 0
          = (stateList (quickselect (.pylist xs) (k : Int) f).2).getD k 0 ∧
        SelectSpec f (stateList (quickselect (.pylist xs) (k : Int) f).2)
          (stateList (quickselect (.pylist (stateList (quickselect (.pylist xs)
              (k : Int) f).2)) (k : Int) f).2) k) ∧
      ((stateList (heapselect (.pylist (stateList (heapselect (.pylist xs)
              (k : Int) f).2)) (k : Int) f).2).getD k 0
          = (stateList (heapselect (.pylist xs) (k : Int) f).2).getD k 0 ∧
        SelectSpec f (stateList (heapselect (.pylist xs) (k : Int) f).2)
          (stateList (heapselect (.pylist (stateList (heapselect (.pylist xs)
              (k : Int) f).2)) (k : Int) f).2) k) ∧
      ((stateList (nth_element (.pylist (stateList (nth_element (.pylist xs)
              (k : Int) f).2)) (k : Int) f).2).getD k 0
          = (stateList (nth_element (.pylist xs) (k : Int) f).2).getD k 0 ∧
        SelectSpec f (stateList (nth_element (.pylist xs) (k : Int) f).2)
          (stateList (nth_element (.pylist (stateList (nth_element (.pylist xs)
              (k : Int) f).2)) (k : Int) f).2) k) := by
  intro f xs k hk
  have hkq : k < (qselCore f xs k).length := by
    rw [(qselCore_stableSelect f xs k hk).1.length_eq]
    exact hk
  have hkh : k < (hselCore f xs k).length := by
    rw [(hselCore_stableSelect f xs k hk).1.length_eq]
    exact hk
  have hkn : k < (nselCore f xs k).length := by
    rw [(nselCore_stableSelect f xs k hk).1.length_eq]
    exact hk
  rw [quickselect_state f xs k hk, heapselect_state f xs k hk,
    nth_element_state f xs k hk,
    quickselect_state f _ k hkq, heapselect_state f _ k hkh,
    nth_element_state f _ k hkn]
  exact ⟨rerun_core qselCore qselCore_stableSelect f xs k hk,
    rerun_core hselCore hselCore_stableSelect f xs k hk,
    rerun_core nselCore nselCore_stableSelect f xs k hk⟩

/-- Witness for C7 at a concrete sequence and rank. -/
theorem claim_C7_witness :
    (1 : Nat) < ([9, 4, 7] : List Int).length ∧
    (stateList (quickselect (.pylist (stateList (quickselect (.pylist [9, 4, 7])
          ((1 : Nat) : Int) id).2)) ((1 : Nat) : Int) id).2).getD 1 0
      = (stateList (quickselect (.pylist [9, 4, 7]) ((1 : Nat) : Int) id).2).getD 1 0 :=
  ⟨by decide, ((claim_C7 id [9, 4, 7] 1 (by decide)).1).1⟩

/-- Claim C8: nth_element never crashes and never loops — in the model the
fuelled introselect recursion already satisfies the full contract for every
depth budget (the heap fallback guarantees progress when the budget runs
out), the three-way partition strictly shrinks both recursion sides even
when many elements equal the pivot, and the contract holds in particular on
fully sorted, reverse-sorted, all-equal and single-element sequences. -/
theorem claim_C8 :
    (∀ (f : Int → Int) (fuel : Nat) (xs : List Int) (k : Nat), k < xs.length →
      StableSelect f xs (nselGo f fuel xs k) k) ∧
    (∀ (f : Int → Int) (xs : List Int), xs ≠ [] →
      (partLt f (pivotKey f xs) xs).length < xs.length ∧
      (partGt f (pivotKey f xs) xs).length < xs.length) ∧
    (∀ (n k : Nat), k < n →
      SelectSpec id ((List.range n).map Int.ofNat)
        (stateList (nth_element (.pylist ((List.range n).map Int.ofNat))
          (k : Int) id).2) k) ∧
    (∀ (n k : Nat), k < n →
      SelectSpec id (((List.range n).map Int.ofNat).reverse)
        (stateList (nth_element (.pylist (((List.range n).map Int.ofNat).reverse))
          (k : Int) id).2) k) ∧
    (∀ (n k : Nat) (c : Int), k < n →
      SelectSpec id (List.replicate n c)
        (stateList (nth_element (.pylist (List.replicate n c)) (k : Int) id).2) k) ∧
    (∀ c : Int,
      SelectSpec id [c] (stateList (nth_element (.pylist [c]) ((0 : Nat) : Int) id).2) 0) := by
  refine ⟨?_, ?_, ?_, ?_, ?_, ?_⟩
  · intro f fuel xs k hk
    exact nselGo_stableSelect f fuel xs k hk
  · intro f xs hne
    obtain ⟨x₀, hm, hx₀⟩ := pivotKey_attained f xs hne
    exact ⟨length_filter_lt_of_witness _ xs x₀ hm (by simp [hx₀]),
      length_filter_lt_of_witness _ xs x₀ hm (by simp [hx₀])⟩
  · intro n k hk
    exact nth_element_selectSpec id _ k (by simpa using hk)
  · intro n k hk
    exact nth_element_selectSpec id _ k (by simpa using hk)
  · intro n k c hk
    exact nth_element_selectSpec id _ k (by simpa using hk)
  · intro c
    exact nth_element_selectSpec id [c] 0 (by simp)

/-- Witness for C8: the fuelled recursion applied at a concrete input with
the budget already exhausted. -/
theorem claim_C8_witness :
    (0 : Nat) < ([4, 2, 6] : List Int).length ∧
    StableSelect id [4, 2, 6] (nselGo id 0 [4, 2, 6] 0) 0 :=
  ⟨by decide, claim_C8.1 id 0 [4, 2, 6] 0 (by decide)⟩

/-- Claim C9: for `1 ≤ K ≤ len(values)` the three selection-based benchmark
wrappers of `benchmark.py` return exactly `bench_sort values K` — the `K`
smallest elements in ascending order (the result is sorted and has length
`K`); every wrapper operates on a copy, the model being a pure function of
`values`. -/
theorem claim_C9 :
    ∀ (values : List Int) (K : Nat), 1 ≤ K → K ≤ values.length →
      bench_quickselect values K = bench_sort values K ∧
      bench_heapselect values K = bench_sort values K ∧
      bench_nth_element values K = bench_sort values K ∧
      List.Pairwise (fun a b : Int => a ≤ b) (bench_sort values K) ∧
      (bench_sort values K).length = K := by
  intro values K h1 h2
  have hk : K - 1 < values.length := by omega
  have hkk : K - 1 + 1 = K := by omega
  have hcast : (K : Int) - 1 = ((K - 1 : Nat) : Int) := by omega
  have hgen : ∀ core : (Int → Int) → List Int → Nat → List Int,
      (∀ (l : List Int) (k : Nat), k < l.length → StableSelect id l (core id l k) k) →
      sortByKey id ((core id values (K - 1)).take K) = bench_sort values K := by
    intro core hcore
    have hperm := stableSelect_take_perm id values (core id values (K - 1)) (K - 1) hk
      (hcore values (K - 1) hk)
    rw [hkk] at hperm
    have hsorted : KSorted id ((sortByKey id values).take K) :=
      ksorted_take id _ K (sortByKey_sorted id values)
    calc sortByKey id ((core id values (K - 1)).take K)
        = sortByKey id ((sortByKey id values).take K) :=
          sortByKey_id_eq_of_perm _ _ hperm
      _ = (sortByKey id values).take K := sortByKey_eq_self id _ hsorted
  refine ⟨?_, ?_, ?_, ?_, ?_⟩
  · unfold bench_quickselect quickselect
    rw [hcast, runSelect_valid qselCore id values (K - 1) hk]
    exact hgen qselCore (fun l k hk2 => qselCore_stableSelect id l k hk2)
  · unfold bench_heapselect heapselect
    rw [hcast, runSelect_valid hselCore id values (K - 1) hk]
    exact hgen hselCore (fun l k hk2 => hselCore_stableSelect id l k hk2)
  · unfold bench_nth_element nth_element
    rw [hcast, runSelect_valid nselCore id values (K - 1) hk]
    exact hgen nselCore (fun l k hk2 => nselCore_stableSelect id l k hk2)
  · exact (ksorted_take id _ K (sortByKey_sorted id values)).imp (fun hab => hab)
  · unfold bench_sort
    rw [List.length_take, sortByKey_length]
    omega

/-- Witness for C9 at a concrete list and `K`. -/
theorem claim_C9_witness :
    ((1 : Nat) ≤ 2 ∧ (2 : Nat) ≤ ([5, 3, 4] : List Int).length) ∧
    bench_quickselect [5, 3, 4] 2 = bench_sort [5, 3, 4] 2 :=
  ⟨⟨by decide, by decide⟩, (claim_C9 [5, 3, 4] 2 (by decide) (by decide)).1⟩

/-- Claim C10: for every non-empty list, the three selection-based median
wrappers of `benchmark_median.py` return exactly `bench_median_low values`,
the element at index `(n-1)//2` of the sorted list. -/
theorem claim_C10 :
    ∀ values : List Int, values ≠ [] →
      bench_nth_element_median values = bench_median_low values ∧
      bench_quickselect_median values = bench_median_low values ∧
      bench_heapselect_median values = bench_median_low values := by
  intro values hne
  have hlen : 0 < values.length := List.length_pos.mpr hne
  have hm : (values.length - 1) / 2 < values.length := by omega
  refine ⟨?_, ?_, ?_⟩
  · unfold bench_nth_element_median bench_median_low
    rw [nth_element_state id values _ hm]
    exact (stableSelect_spec id values _ _ hm
      (nselCore_stableSelect id values _ hm)).1
  · unfold bench_quickselect_median bench_median_low
    rw [quickselect_state id values _ hm]
    exact (stableSelect_spec id values _ _ hm
      (qselCore_stableSelect id values _ hm)).1
  · unfold bench_heapselect_median bench_median_low
    rw [heapselect_state id values _ hm]
    exact (stableSelect_spec id values _ _ hm
      (hselCore_stableSelect id values _ hm)).1

/-- Witness for C10 at a concrete list. -/
theorem claim_C10_witness :
    ([8, 1, 5] : List Int) ≠ [] ∧
    bench_nth_element_median [8, 1, 5] = bench_median_low [8, 1, 5] :=
  ⟨by decide, (claim_C10 [8, 1, 5] (by decide)).1⟩
